import Mathlib

/-
Verification development for the ByteQueue repository (src/ByteQueue.cpp).

The C++ program implements up to 64 byte queues inside a fixed 2048-byte
arena: a FragmentPool of 64 slots of 32 bytes each, handed out through an
intrusive free list, and queues built as singly linked chains of in-use
slots (ByteQueueFragment).  Each in-use fragment stores four bookkeeping
bytes (backFragmentIdx, nextFragmentIdx, frontItemIdx, backItemIdx — all
`char`-valued, -1 meaning "none") and a 28-byte payload.

Shallow embedding notes:
* A slot is modelled by the record `ByteQueueFragment`; the pool by a list
  of 64 such records together with the free list, represented as the list
  of free slot indices in link order (head = `nextFreeFragment`).  In the
  C++ code the free links live inside the slots' own memory (a union); the
  contents of a free slot are never observed before being fully
  reinitialised by `create_queue` / `enqueue_byte`, so representing the
  free list by its index order is faithful.
* `char` index fields become `Int` (so -1 is representable); payload bytes
  become `Nat`, with stores truncating mod 256 exactly as storing into
  `unsigned char` does.
* Queue handles (`ByteQueueFragment*`, updated through a reference) become
  `Option Nat`: `none` is the null/"empty" handle, `some f` the pool index
  of the front fragment.  Each operation returns the updated handle.
* Reads or writes at indices the C++ code would access out of bounds
  (undefined behaviour, never reachable from the API) are modelled
  defensively: `getD` with default 0, `List.set` out of range is a no-op.
* `destroy_queue` is a C++ while-loop; it is modelled with explicit fuel
  (the pool size), and the development proves that for every reachable
  handle the chain is shorter than the fuel, so the loop terminates with
  the handle set to null.
-/

set_option linter.unusedVariables false

namespace ByteQueueSpec

/-- In-use interpretation of a 32-byte pool slot (`ByteQueueFragment`):
four bookkeeping indices (stored as `char` in C++, -1 meaning none) and a
28-byte payload. -/
structure ByteQueueFragment where
  backFragmentIdx : Int
  nextFragmentIdx : Int
  frontItemIdx : Int
  backItemIdx : Int
  bytes : List Nat
deriving DecidableEq

/-- Payload read `bytes[idx]` (C++ `getByte`).  A negative or too large
index would be undefined behaviour in C++; modelled as reading 0. -/
def ByteQueueFragment.getByte (fr : ByteQueueFragment) (idx : Int) : Nat :=
  if 0 ≤ idx then fr.bytes.getD idx.toNat 0 else 0

/-- Payload write `bytes[idx] = byte` (C++ `setByte`); storing into an
`unsigned char` truncates mod 256.  An out-of-range index would be
undefined behaviour in C++; modelled as a no-op. -/
def ByteQueueFragment.setByte (fr : ByteQueueFragment) (idx : Int) (b : Nat) :
    ByteQueueFragment :=
  if 0 ≤ idx then { fr with bytes := fr.bytes.set idx.toNat (b % 256) } else fr

/-- C++ `ByteQueueFragment::isEmpty`:
`frontItemIdx == -1 || backItemIdx < frontItemIdx`. -/
def ByteQueueFragment.isEmpty (fr : ByteQueueFragment) : Bool :=
  fr.frontItemIdx == -1 || decide (fr.backItemIdx < fr.frontItemIdx)

/-- C++ `isFrontItemAtEnd`: `frontItemIdx == 27`. -/
def ByteQueueFragment.isFrontItemAtEnd (fr : ByteQueueFragment) : Bool :=
  fr.frontItemIdx == 27

/-- C++ `isBackItemAtEnd`: `backItemIdx == 27`. -/
def ByteQueueFragment.isBackItemAtEnd (fr : ByteQueueFragment) : Bool :=
  fr.backItemIdx == 27

/-- A fully zeroed slot, the result of `memset(ptr, 0, 32)`
(`FragmentPool::eraseFragment`). -/
def erasedFragment : ByteQueueFragment :=
  ⟨0, 0, 0, 0, List.replicate 28 0⟩

/-- The fragment pool: the 64 slots of the 2048-byte arena, and the free
list as the list of free slot indices in link order (head =
`nextFreeFragment`, `[]` = null). -/
structure FragmentPool where
  slots : List ByteQueueFragment
  freeList : List Nat
deriving DecidableEq

/-- Read slot `i` of the pool (C++ `getPointerAtIndex` plus dereference). -/
def FragmentPool.get (p : FragmentPool) (i : Nat) : ByteQueueFragment :=
  p.slots.getD i erasedFragment

/-- Overwrite slot `i` of the pool. -/
def FragmentPool.setSlot (p : FragmentPool) (i : Nat) (fr : ByteQueueFragment) :
    FragmentPool :=
  { p with slots := p.slots.set i fr }

/-- Update slot `i` of the pool in place. -/
def FragmentPool.modify (p : FragmentPool) (i : Nat)
    (g : ByteQueueFragment → ByteQueueFragment) : FragmentPool :=
  p.setSlot i (g (p.get i))

/-- C++ `FragmentPool::allocate`: pop the free-list head; `none` when the
free list is exhausted (the code then calls `on_out_of_memory` and returns
`nullptr`). Nothing is mutated on failure. -/
def FragmentPool.allocate (p : FragmentPool) : Option (Nat × FragmentPool) :=
  match p.freeList with
  | [] => none
  | i :: rest => some (i, { p with freeList := rest })

/-- C++ `FragmentPool::deallocate`: zero the slot (`eraseFragment`) and
push it onto the free-list head (`setNextFree`). -/
def FragmentPool.deallocate (p : FragmentPool) (i : Nat) : FragmentPool :=
  { slots := p.slots.set i erasedFragment, freeList := i :: p.freeList }

/-- The pool right after the `FragmentPool` constructor ran: arena zeroed,
all 64 slots linked into the free list in ascending order. -/
def initialPool : FragmentPool :=
  ⟨List.replicate 64 erasedFragment, List.range 64⟩

/-- C++ `create_queue`: allocate one fragment (propagating allocation
failure as a null handle), make it its own back, no next, both item
indices -1, payload cleared. -/
def create_queue (p : FragmentPool) : Option Nat × FragmentPool :=
  match p.allocate with
  | none => (none, p)
  | some (i, p1) =>
    (some i, p1.setSlot i
      { backFragmentIdx := (i : Int), nextFragmentIdx := -1,
        frontItemIdx := -1, backItemIdx := -1, bytes := List.replicate 28 0 })

/-- Body of C++ `enqueue_byte` once `front` is known non-null: locate the
back fragment through the front's cached `backFragmentIdx`; if it is full,
allocate and link a new back fragment (failure leaves everything
untouched); else if the front fragment is untouched (`frontItemIdx == -1`)
write the first byte at index 0; else bump `backItemIdx` and write there. -/
def enqueueAt (f : Nat) (byte : Nat) (p : FragmentPool) :
    Option Nat × FragmentPool :=
  let cb : Nat := (p.get f).backFragmentIdx.toNat
  if (p.get cb).isBackItemAtEnd then
    match p.allocate with
    | none => (some f, p)
    | some (nb, p1) =>
      let p2 := p1.modify f (fun fr => { fr with backFragmentIdx := (nb : Int) })
      let p3 := p2.modify cb (fun fr => { fr with nextFragmentIdx := (nb : Int) })
      let p4 := p3.setSlot nb
        { backFragmentIdx := -1, nextFragmentIdx := -1, frontItemIdx := -1,
          backItemIdx := 0, bytes := (List.replicate 28 0).set 0 (byte % 256) }
      (some f, p4)
  else if (p.get f).frontItemIdx == -1 then
    (some f, p.modify f (fun fr =>
      ({ fr with frontItemIdx := 0, backItemIdx := 0 }).setByte 0 byte))
  else
    (some f, p.modify cb (fun fr =>
      let fr1 := { fr with backItemIdx := fr.backItemIdx + 1 }
      fr1.setByte fr1.backItemIdx byte))

/-- C++ `enqueue_byte`: on a null handle first try `create_queue`
(propagating failure as a no-op, the byte is dropped), then append the
byte at the back. -/
def enqueue_byte (front : Option Nat) (byte : Nat) (p : FragmentPool) :
    Option Nat × FragmentPool :=
  match front with
  | none =>
    match create_queue p with
    | (none, p1) => (none, p1)
    | (some f, p1) => enqueueAt f byte p1
  | some f => enqueueAt f byte p

/-- C++ `dequeue_byte`: on a null handle or a logically empty front
fragment report `EmptyQueue` and return the sentinel 0 with no mutation.
Otherwise read the byte at `frontItemIdx`; if the front fragment is
exhausted, either free it (no next fragment: handle becomes null) or
promote the next fragment to front (copying the cached back index,
resetting its `frontItemIdx` to 0) and free the old front; otherwise bump
`frontItemIdx`, freeing the fragment if the queue became empty.
Returns (byte, updated handle, updated pool). -/
def dequeue_byte (front : Option Nat) (p : FragmentPool) :
    Nat × Option Nat × FragmentPool :=
  match front with
  | none => (0, none, p)
  | some f =>
    let fr := p.get f
    if fr.isEmpty then (0, some f, p)
    else
      let b := fr.getByte fr.frontItemIdx
      if fr.isFrontItemAtEnd then
        if fr.nextFragmentIdx == -1 then
          (b, none, p.deallocate f)
        else
          let nf : Nat := fr.nextFragmentIdx.toNat
          let p1 := p.modify nf (fun g =>
            { g with backFragmentIdx := fr.backFragmentIdx, frontItemIdx := 0 })
          (b, some nf, p1.deallocate f)
      else
        let p1 := p.modify f (fun g => { g with frontItemIdx := g.frontItemIdx + 1 })
        if (p1.get f).isEmpty then (b, none, p1.deallocate f)
        else (b, some f, p1)

/-- Fuelled body of the C++ `destroy_queue` while-loop: deallocate the
front fragment and step to its successor until the handle is null. -/
def destroyAux : Nat → Option Nat → FragmentPool → Option Nat × FragmentPool
  | 0, front, p => (front, p)
  | _ + 1, none, p => (none, p)
  | fuel + 1, some f, p =>
    let nxt := (p.get f).nextFragmentIdx
    destroyAux fuel (if nxt == -1 then none else some nxt.toNat) (p.deallocate f)

/-- C++ `destroy_queue`: walk the chain front to back, deallocating every
fragment, and leave the handle null.  The loop is run with fuel equal to
the pool size; the development proves this fuel always suffices for
reachable handles. -/
def destroy_queue (front : Option Nat) (p : FragmentPool) :
    Option Nat × FragmentPool :=
  destroyAux p.slots.length front p

/- ------------------------------------------------------------------
Trace semantics: clients hold any number of handles (as `main` does with
q0 and q1); an operation acts on one of them.  Reachable states are those
produced by running a list of operations from the freshly constructed
pool.
------------------------------------------------------------------ -/

/-- One client-visible API call, addressed to a held handle by position
(`newQueue` appends a fresh handle, as a new `create_queue()` variable). -/
inductive QueueOp where
  | newQueue : QueueOp
  | enq : Nat → Nat → QueueOp
  | deq : Nat → QueueOp
  | destroy : Nat → QueueOp
deriving DecidableEq

/-- Global state: the pool plus every handle variable held by the client. -/
structure SysState where
  pool : FragmentPool
  queues : List (Option Nat)
deriving DecidableEq

/-- State right after static initialisation, before any API call. -/
def initState : SysState := ⟨initialPool, []⟩

/-- Apply one API call.  Calls addressed to a handle position that does
not exist are no-ops (a client cannot make them). -/
def applyOp (s : SysState) : QueueOp → SysState
  | QueueOp.newQueue =>
    let r := create_queue s.pool
    ⟨r.2, s.queues ++ [r.1]⟩
  | QueueOp.enq k b =>
    if k < s.queues.length then
      let r := enqueue_byte (s.queues.getD k none) b s.pool
      ⟨r.2, s.queues.set k r.1⟩
    else s
  | QueueOp.deq k =>
    if k < s.queues.length then
      let r := dequeue_byte (s.queues.getD k none) s.pool
      ⟨r.2.2, s.queues.set k r.2.1⟩
    else s
  | QueueOp.destroy k =>
    if k < s.queues.length then
      let r := destroy_queue (s.queues.getD k none) s.pool
      ⟨r.2, s.queues.set k r.1⟩
    else s

/-- Run a list of API calls from the initial state. -/
def runOps (ops : List QueueOp) : SysState :=
  ops.foldl applyOp initState

/-- The bytes a `deq k` call will print, tagged with the queue position. -/
def opOut (s : SysState) : QueueOp → List (Nat × Nat)
  | QueueOp.deq k =>
    if k < s.queues.length then
      [(k, (dequeue_byte (s.queues.getD k none) s.pool).1)]
    else []
  | _ => []

/-- Run a list of API calls, collecting every dequeued byte tagged with
the queue it came from, in call order. -/
def runOpsOut (ops : List QueueOp) : SysState × List (Nat × Nat) :=
  ops.foldl (fun acc op => (applyOp acc.1 op, acc.2 ++ opOut acc.1 op)) (initState, [])

/-- Enqueue a whole list of bytes, propagating the evolving handle. -/
def enqueueAll (front : Option Nat) (bs : List Nat) (p : FragmentPool) :
    Option Nat × FragmentPool :=
  match bs with
  | [] => (front, p)
  | b :: rest =>
    let r := enqueue_byte front b p
    enqueueAll r.1 rest r.2

/-- Dequeue `n` times, collecting the returned bytes in order. -/
def dequeueAll (front : Option Nat) (n : Nat) (p : FragmentPool) :
    List Nat × Option Nat × FragmentPool :=
  match n with
  | 0 => ([], front, p)
  | n + 1 =>
    let r := dequeue_byte front p
    let rec' := dequeueAll r.2.1 n r.2.2
    (r.1 :: rec'.1, rec'.2.1, rec'.2.2)

/- ------------------------------------------------------------------
Abstraction: the live bytes of a fragment and of a queue chain, and the
representation invariant relating a handle to the chain of in-use slots.
------------------------------------------------------------------ -/

/-- The live bytes of an in-use fragment: payload positions
`max frontItemIdx 0 .. backItemIdx` (non-front fragments keep
`frontItemIdx = -1`; a fresh fragment with both indices -1 holds none). -/
def fragLive (fr : ByteQueueFragment) : List Nat :=
  (fr.bytes.take (fr.backItemIdx + 1).toNat).drop fr.frontItemIdx.toNat

/-- The live bytes of a queue, front fragment first. -/
def queueLive (p : FragmentPool) (segs : List Nat) : List Nat :=
  (segs.map fun i => fragLive (p.get i)).flatten

/-- The slot indices `segs` form the chain of one queue in pool `p`:
consecutive slots are linked by `nextFragmentIdx`, the last has no next;
every fragment but the last is full at the back (`backItemIdx = 27`);
every fragment but the first still has `frontItemIdx = -1` and has had at
least one byte written (`backItemIdx ≥ 0`). -/
inductive ChainInv (p : FragmentPool) : List Nat → Prop
  | single (f : Nat) :
      (p.get f).nextFragmentIdx = -1 → ChainInv p [f]
  | cons (f g : Nat) (rest : List Nat) :
      (p.get f).nextFragmentIdx = (g : Int) →
      (p.get f).backItemIdx = 27 →
      (p.get g).frontItemIdx = -1 →
      0 ≤ (p.get g).backItemIdx →
      ChainInv p (g :: rest) →
      ChainInv p (f :: g :: rest)

/-- Conditions specific to the front fragment `f` of the chain `segs`:
its `backFragmentIdx` caches the last chain element; if its
`frontItemIdx` is -1 the queue is a freshly created single fragment; once
`frontItemIdx` is a real index it never passes `backItemIdx` (between
calls). -/
def HeadInv (p : FragmentPool) (f : Nat) (segs : List Nat) : Prop :=
  (p.get f).backFragmentIdx = ((segs.getLastD f : Nat) : Int) ∧
  ((p.get f).frontItemIdx = -1 →
    (p.get f).backItemIdx = -1 ∧ segs = [f]) ∧
  (0 ≤ (p.get f).frontItemIdx →
    (p.get f).frontItemIdx ≤ (p.get f).backItemIdx)

/-- Per-fragment wellformedness of an in-use slot: both item indices in
[-1, 27] and a 28-byte payload. -/
def FragInv (fr : ByteQueueFragment) : Prop :=
  -1 ≤ fr.frontItemIdx ∧ fr.frontItemIdx ≤ 27 ∧
  -1 ≤ fr.backItemIdx ∧ fr.backItemIdx ≤ 27 ∧
  fr.bytes.length = 28

/-- A handle matches a chain: the null handle owns no slots; a non-null
handle heads a wellformed chain. -/
def MatchQ (p : FragmentPool) : Option Nat → List Nat → Prop
  | none, segs => segs = []
  | some f, segs =>
    segs.head? = some f ∧ ChainInv p segs ∧ HeadInv p f segs ∧
    ∀ i ∈ segs, FragInv (p.get i)

/-- Pool-level wellformedness relative to the slots `owned` by live
queues: 64 slots, and the owned slots together with the free list are
pairwise distinct indices below 64. -/
def PoolWF (p : FragmentPool) (owned : List Nat) : Prop :=
  p.slots.length = 64 ∧
  (owned ++ p.freeList).Nodup ∧
  ∀ i ∈ owned ++ p.freeList, i < 64

/-- Global invariant of a system state: some assignment `cs` of chains to
the held handles matches every handle and makes the pool wellformed. -/
def Inv (s : SysState) : Prop :=
  ∃ cs : List (List Nat),
    cs.length = s.queues.length ∧
    (∀ k, k < cs.length → MatchQ s.pool (s.queues.getD k none) (cs.getD k [])) ∧
    PoolWF s.pool cs.flatten

/-- Wellformedness of a single queue against the pool, as used while
draining: 64 slots, the queue's chain and the free list pairwise distinct
indices below 64, and the handle matching the chain. -/
def DeqRep (p : FragmentPool) (h : Option Nat) (segs : List Nat) : Prop :=
  p.slots.length = 64 ∧
  (segs ++ p.freeList).Nodup ∧
  (∀ i ∈ segs ++ p.freeList, i < 64) ∧
  MatchQ p h segs

/-- Strengthened representation of a single queue that is only being
filled (no dequeues yet) from a fresh pool: additionally, the chain and
free list partition all 64 slots, the front byte is still at position 0,
and all fragments but the last are completely full, pinning the live byte
count. -/
def EnqRep (p : FragmentPool) (h : Option Nat) (segs : List Nat) : Prop :=
  DeqRep p h segs ∧
  segs.length + p.freeList.length = 64 ∧
  (∀ f, h = some f → (p.get f).frontItemIdx = 0 ∧
    (queueLive p segs).length =
      28 * (segs.length - 1) + ((p.get (segs.getLastD 0)).backItemIdx.toNat + 1))

/- ------------------------------------------------------------------
The reference workload of `main` and its per-queue projections.
------------------------------------------------------------------ -/

/-- The exact call sequence of `main` in src/ByteQueue.cpp: q0 is handle
position 0, q1 is handle position 1. -/
def mainWorkload : List QueueOp :=
  [QueueOp.newQueue, QueueOp.enq 0 0, QueueOp.enq 0 1,
   QueueOp.newQueue, QueueOp.enq 1 3, QueueOp.enq 0 2, QueueOp.enq 1 4,
   QueueOp.deq 0, QueueOp.deq 0,
   QueueOp.enq 0 5, QueueOp.enq 1 6,
   QueueOp.deq 0, QueueOp.deq 0,
   QueueOp.destroy 0,
   QueueOp.deq 1, QueueOp.deq 1, QueueOp.deq 1,
   QueueOp.destroy 1]

/-- The sub-workload of `mainWorkload` touching only q0 (which is handle
position 0 here as well). -/
def workloadQ0only : List QueueOp :=
  [QueueOp.newQueue, QueueOp.enq 0 0, QueueOp.enq 0 1, QueueOp.enq 0 2,
   QueueOp.deq 0, QueueOp.deq 0,
   QueueOp.enq 0 5,
   QueueOp.deq 0, QueueOp.deq 0,
   QueueOp.destroy 0]

/-- The sub-workload of `mainWorkload` touching only q1 (handle position
0 in this isolated run). -/
def workloadQ1only : List QueueOp :=
  [QueueOp.newQueue, QueueOp.enq 0 3, QueueOp.enq 0 4, QueueOp.enq 0 6,
   QueueOp.deq 0, QueueOp.deq 0, QueueOp.deq 0,
   QueueOp.destroy 0]

/- ==================================================================
Lemma layer.
================================================================== -/

theorem get_setSlot_self {p : FragmentPool} {i : Nat} {fr : ByteQueueFragment}
    (h : i < p.slots.length) : (p.setSlot i fr).get i = fr := by
  simp [FragmentPool.get, FragmentPool.setSlot, List.getD_eq_getElem?_getD,
    List.getElem?_set_self h]

theorem get_setSlot_ne {p : FragmentPool} {i j : Nat} {fr : ByteQueueFragment}
    (h : j ≠ i) : (p.setSlot i fr).get j = p.get j := by
  simp [FragmentPool.get, FragmentPool.setSlot, List.getD_eq_getElem?_getD,
    List.getElem?_set_ne (Ne.symm h)]

theorem freeList_setSlot {p : FragmentPool} {i : Nat} {fr : ByteQueueFragment} :
    (p.setSlot i fr).freeList = p.freeList := rfl

theorem length_setSlot {p : FragmentPool} {i : Nat} {fr : ByteQueueFragment} :
    (p.setSlot i fr).slots.length = p.slots.length := by
  simp [FragmentPool.setSlot]

theorem get_modify_self {p : FragmentPool} {i : Nat}
    {g : ByteQueueFragment → ByteQueueFragment} (h : i < p.slots.length) :
    (p.modify i g).get i = g (p.get i) :=
  get_setSlot_self h

theorem get_modify_ne {p : FragmentPool} {i j : Nat}
    {g : ByteQueueFragment → ByteQueueFragment} (h : j ≠ i) :
    (p.modify i g).get j = p.get j :=
  get_setSlot_ne h

theorem get_deallocate_self {p : FragmentPool} {i : Nat}
    (h : i < p.slots.length) : (p.deallocate i).get i = erasedFragment := by
  simp [FragmentPool.get, FragmentPool.deallocate, List.getD_eq_getElem?_getD,
    List.getElem?_set_self h]

theorem get_deallocate_ne {p : FragmentPool} {i j : Nat} (h : j ≠ i) :
    (p.deallocate i).get j = p.get j := by
  simp [FragmentPool.get, FragmentPool.deallocate, List.getD_eq_getElem?_getD,
    List.getElem?_set_ne (Ne.symm h)]

theorem freeList_deallocate {p : FragmentPool} {i : Nat} :
    (p.deallocate i).freeList = i :: p.freeList := rfl

theorem length_deallocate {p : FragmentPool} {i : Nat} :
    (p.deallocate i).slots.length = p.slots.length := by
  simp [FragmentPool.deallocate]

theorem queueLive_nil {p : FragmentPool} : queueLive p [] = [] := rfl

theorem queueLive_cons {p : FragmentPool} {i : Nat} {rest : List Nat} :
    queueLive p (i :: rest) = fragLive (p.get i) ++ queueLive p rest := by
  simp [queueLive]

theorem queueLive_append {p : FragmentPool} {l1 l2 : List Nat} :
    queueLive p (l1 ++ l2) = queueLive p l1 ++ queueLive p l2 := by
  simp [queueLive]

theorem queueLive_congr {p p' : FragmentPool} {segs : List Nat}
    (h : ∀ i ∈ segs, fragLive (p'.get i) = fragLive (p.get i)) :
    queueLive p' segs = queueLive p segs := by
  unfold queueLive
  rw [List.map_congr_left fun i hi => h i hi]

theorem fragLive_length {fr : ByteQueueFragment}
    (h : (fr.backItemIdx + 1).toNat ≤ fr.bytes.length) :
    (fragLive fr).length = (fr.backItemIdx + 1).toNat - fr.frontItemIdx.toNat := by
  simp only [fragLive, List.length_drop, List.length_take]
  omega

theorem fragLive_head {fr : ByteQueueFragment}
    (h0 : 0 ≤ fr.frontItemIdx) (h1 : fr.frontItemIdx ≤ fr.backItemIdx)
    (h2 : (fr.backItemIdx + 1).toNat ≤ fr.bytes.length) :
    fragLive fr =
      fr.getByte fr.frontItemIdx ::
        (fr.bytes.take (fr.backItemIdx + 1).toNat).drop (fr.frontItemIdx.toNat + 1) := by
  have hlt : fr.frontItemIdx.toNat < (fr.bytes.take (fr.backItemIdx + 1).toNat).length := by
    simp only [List.length_take]
    omega
  unfold fragLive
  rw [List.drop_eq_getElem_cons hlt]
  congr 1
  rw [List.getElem_take]
  simp only [ByteQueueFragment.getByte, if_pos h0, List.getD_eq_getElem?_getD]
  rw [List.getElem?_eq_getElem (by omega)]
  rfl

theorem take_set_snoc {l : List Nat} {k : Nat} {v : Nat} (h : k < l.length) :
    (l.set k v).take (k + 1) = l.take k ++ [v] := by
  rw [List.set_eq_take_append_cons_drop, if_pos h]
  rw [show k + 1 = (l.take k).length + 1 by simp [List.length_take]; omega]
  rw [List.take_append]
  simp

theorem fragLive_snoc {fr : ByteQueueFragment} {b : Nat}
    (hb0 : -1 ≤ fr.backItemIdx) (hb1 : fr.backItemIdx ≤ 26)
    (hlen : fr.bytes.length = 28)
    (hm : fr.frontItemIdx.toNat ≤ (fr.backItemIdx + 1).toNat) :
    fragLive { fr with backItemIdx := fr.backItemIdx + 1,
                       bytes := fr.bytes.set (fr.backItemIdx + 1).toNat (b % 256) } =
      fragLive fr ++ [b % 256] := by
  unfold fragLive
  simp only
  have hk : (fr.backItemIdx + 1).toNat < fr.bytes.length := by omega
  rw [show (fr.backItemIdx + 1 + 1).toNat = (fr.backItemIdx + 1).toNat + 1 by omega]
  rw [take_set_snoc hk]
  rw [List.drop_append_of_le_length (by simp only [List.length_take]; omega)]

theorem ChainInv.ne_nil {p : FragmentPool} {segs : List Nat}
    (h : ChainInv p segs) : segs ≠ [] := by
  cases h <;> simp

theorem chainInv_fields {p p' : FragmentPool} {segs : List Nat}
    (hc : ChainInv p segs)
    (h : ∀ i ∈ segs,
      (p'.get i).nextFragmentIdx = (p.get i).nextFragmentIdx ∧
      (p'.get i).backItemIdx = (p.get i).backItemIdx ∧
      (p'.get i).frontItemIdx = (p.get i).frontItemIdx) :
    ChainInv p' segs := by
  induction hc with
  | single f hf =>
    exact ChainInv.single f (by rw [(h f (by simp)).1]; exact hf)
  | cons f g rest h1 h2 h3 h4 h5 ih =>
    refine ChainInv.cons f g rest ?_ ?_ ?_ ?_
      (ih fun i hi => h i (by simp [hi]))
    · rw [(h f (by simp)).1]; exact h1
    · rw [(h f (by simp)).2.1]; exact h2
    · rw [(h g (by simp)).2.2]; exact h3
    · rw [(h g (by simp)).2.1]; exact h4

theorem chainInv_update_head {p p' : FragmentPool} {f : Nat} {tl : List Nat}
    (hc : ChainInv p (f :: tl))
    (hframe : ∀ i ∈ tl,
      (p'.get i).nextFragmentIdx = (p.get i).nextFragmentIdx ∧
      (p'.get i).backItemIdx = (p.get i).backItemIdx ∧
      (p'.get i).frontItemIdx = (p.get i).frontItemIdx)
    (hn : (p'.get f).nextFragmentIdx = (p.get f).nextFragmentIdx)
    (hb : (p'.get f).backItemIdx = (p.get f).backItemIdx) :
    ChainInv p' (f :: tl) := by
  cases hc with
  | single _ hf => exact ChainInv.single f (by rw [hn]; exact hf)
  | cons _ g rest h1 h2 h3 h4 h5 =>
    refine ChainInv.cons f g rest (by rw [hn]; exact h1) (by rw [hb]; exact h2)
      (by rw [(hframe g (by simp)).2.2]; exact h3)
      (by rw [(hframe g (by simp)).2.1]; exact h4)
      (chainInv_fields h5 fun i hi => hframe i (by simp [hi]))

theorem chainInv_update_last {p p' : FragmentPool} {segs : List Nat} {c : Nat}
    (hc : ChainInv p segs) (hl : segs.getLast? = some c) (hnd : segs.Nodup)
    (hframe : ∀ i ∈ segs, i ≠ c →
      (p'.get i).nextFragmentIdx = (p.get i).nextFragmentIdx ∧
      (p'.get i).backItemIdx = (p.get i).backItemIdx ∧
      (p'.get i).frontItemIdx = (p.get i).frontItemIdx)
    (hn : (p'.get c).nextFragmentIdx = (p.get c).nextFragmentIdx)
    (hf : (p'.get c).frontItemIdx = (p.get c).frontItemIdx)
    (hmono : 0 ≤ (p.get c).backItemIdx → 0 ≤ (p'.get c).backItemIdx) :
    ChainInv p' segs := by
  induction hc with
  | single f hfr =>
    have : f = c := by simpa using hl
    subst this
    exact ChainInv.single f (by rw [hn]; exact hfr)
  | cons f g rest h1 h2 h3 h4 h5 ih =>
    have hl' : (g :: rest).getLast? = some c := by
      rw [← List.getLast?_cons_cons (a := f)]; exact hl
    have hcmem : c ∈ g :: rest := by
      rcases List.getLast?_eq_some_iff.mp hl' with ⟨ys, hys⟩
      rw [hys]; simp
    have hfc : f ≠ c := by
      intro h
      subst h
      exact (List.nodup_cons.mp hnd).1 hcmem
    refine ChainInv.cons f g rest ?_ ?_ ?_ ?_
      (ih hl' (List.nodup_cons.mp hnd).2 fun i hi hic => hframe i (by simp [hi]) hic)
    · rw [(hframe f (by simp) hfc).1]; exact h1
    · rw [(hframe f (by simp) hfc).2.1]; exact h2
    · by_cases hgc : g = c
      · subst hgc; rw [hf]; exact h3
      · rw [(hframe g (by simp) hgc).2.2]; exact h3
    · by_cases hgc : g = c
      · subst hgc; exact hmono h4
      · rw [(hframe g (by simp) hgc).2.1]; exact h4

theorem chainInv_snoc {p p' : FragmentPool} {segs : List Nat} {c nb : Nat}
    (hc : ChainInv p segs) (hl : segs.getLast? = some c) (hnd : segs.Nodup)
    (hframe : ∀ i ∈ segs, i ≠ c →
      (p'.get i).nextFragmentIdx = (p.get i).nextFragmentIdx ∧
      (p'.get i).backItemIdx = (p.get i).backItemIdx ∧
      (p'.get i).frontItemIdx = (p.get i).frontItemIdx)
    (hcn : (p'.get c).nextFragmentIdx = (nb : Int))
    (hcb : (p'.get c).backItemIdx = (p.get c).backItemIdx)
    (hcf : (p'.get c).frontItemIdx = (p.get c).frontItemIdx)
    (hfull : (p.get c).backItemIdx = 27)
    (hnew1 : (p'.get nb).nextFragmentIdx = -1)
    (hnew2 : (p'.get nb).frontItemIdx = -1)
    (hnew3 : 0 ≤ (p'.get nb).backItemIdx) :
    ChainInv p' (segs ++ [nb]) := by
  induction hc with
  | single f hfr =>
    have : f = c := by simpa using hl
    subst this
    exact ChainInv.cons f nb [] hcn (by rw [hcb]; exact hfull) hnew2 hnew3
      (ChainInv.single nb hnew1)
  | cons f g rest h1 h2 h3 h4 h5 ih =>
    have hl' : (g :: rest).getLast? = some c := by
      rw [← List.getLast?_cons_cons (a := f)]; exact hl
    have hcmem : c ∈ g :: rest := by
      rcases List.getLast?_eq_some_iff.mp hl' with ⟨ys, hys⟩
      rw [hys]; simp
    have hfc : f ≠ c := by
      intro h
      subst h
      exact (List.nodup_cons.mp hnd).1 hcmem
    have htail := ih hl' (List.nodup_cons.mp hnd).2
      fun i hi hic => hframe i (by simp [hi]) hic
    rw [List.cons_append, List.cons_append]
    rw [List.cons_append] at htail
    refine ChainInv.cons f g (rest ++ [nb]) ?_ ?_ ?_ ?_ htail
    · rw [(hframe f (by simp) hfc).1]; exact h1
    · rw [(hframe f (by simp) hfc).2.1]; exact h2
    · by_cases hgc : g = c
      · subst hgc; rw [hcf]; exact h3
      · rw [(hframe g (by simp) hgc).2.2]; exact h3
    · by_cases hgc : g = c
      · subst hgc; rw [hcb]; exact h4
      · rw [(hframe g (by simp) hgc).2.1]; exact h4

theorem chainInv_tail_fields {p : FragmentPool} {f : Nat} {tl : List Nat}
    (hc : ChainInv p (f :: tl)) :
    ∀ i ∈ tl, (p.get i).frontItemIdx = -1 ∧ 0 ≤ (p.get i).backItemIdx := by
  induction tl generalizing f with
  | nil => simp
  | cons g rest ih =>
    cases hc with
    | cons _ _ _ h1 h2 h3 h4 h5 =>
      intro i hi
      rcases List.mem_cons.mp hi with h | h
      · subst h; exact ⟨h3, h4⟩
      · exact ih h5 i h

theorem matchQ_front_facts {p : FragmentPool} {f : Nat} {segs : List Nat}
    (hm : MatchQ p (some f) segs) (hne : queueLive p segs ≠ []) :
    0 ≤ (p.get f).frontItemIdx ∧
      (p.get f).frontItemIdx ≤ (p.get f).backItemIdx ∧
      (p.get f).isEmpty = false := by
  obtain ⟨hhd, hc, hh, hfi⟩ := hm
  by_cases h1 : (p.get f).frontItemIdx = -1
  · exfalso
    obtain ⟨hb, hsg⟩ := hh.2.1 h1
    apply hne
    rw [hsg, queueLive_cons, queueLive_nil]
    unfold fragLive
    rw [hb]
    simp
  · have hmem : f ∈ segs := by
      cases segs with
      | nil => simp at hhd
      | cons a t =>
        simp only [List.head?_cons, Option.some.injEq] at hhd
        simp [hhd]
    have hfi' := hfi f hmem
    have h0 : 0 ≤ (p.get f).frontItemIdx := by
      rcases hfi' with ⟨ha, _⟩; omega
    have h2 := hh.2.2 h0
    refine ⟨h0, h2, ?_⟩
    simp only [ByteQueueFragment.isEmpty, Bool.or_eq_false_iff, beq_eq_false_iff_ne,
      ne_eq, decide_eq_false_iff_not, not_lt]
    exact ⟨h1, h2⟩

theorem chainInv_full_of_next {p : FragmentPool} {segs : List Nat}
    (hc : ChainInv p segs) :
    ∀ i ∈ segs, (p.get i).nextFragmentIdx ≠ -1 → (p.get i).backItemIdx = 27 := by
  induction hc with
  | single f hf =>
    intro i hi hne
    rcases List.mem_singleton.mp hi with rfl
    exact absurd hf hne
  | cons f g rest h1 h2 h3 h4 h5 ih =>
    intro i hi hne
    rcases List.mem_cons.mp hi with rfl | h
    · exact h2
    · exact ih i h hne

theorem dequeue_spec {p : FragmentPool} {f : Nat} {segs : List Nat} {b : Nat}
    {live : List Nat}
    (hlen : p.slots.length = 64)
    (hnd : (segs ++ p.freeList).Nodup)
    (hbd : ∀ i ∈ segs ++ p.freeList, i < 64)
    (hm : MatchQ p (some f) segs)
    (hl : queueLive p segs = b :: live) :
    ∃ h' p' segs',
      dequeue_byte (some f) p = (b, h', p') ∧
      MatchQ p' h' segs' ∧
      p'.slots.length = 64 ∧
      (∀ i, i ∉ segs → p'.get i = p.get i) ∧
      queueLive p' segs' = live ∧
      ((segs' = segs ∧ p'.freeList = p.freeList) ∨
        (segs = f :: segs' ∧ p'.freeList = f :: p.freeList)) ∧
      (h' = none ↔ live = []) := by
  have hnemp : queueLive p segs ≠ [] := by rw [hl]; simp
  obtain ⟨h0, hfb, hEmpty⟩ := matchQ_front_facts hm hnemp
  obtain ⟨hhd, hc, hh, hfi⟩ := hm
  obtain ⟨tl, rfl⟩ : ∃ t, segs = f :: t := by
    cases segs with
    | nil => simp at hhd
    | cons a t =>
      simp only [List.head?_cons, Option.some.injEq] at hhd
      exact ⟨t, by rw [hhd]⟩
  obtain ⟨hf1, hf2, hf3, hf4, hf5⟩ := hfi f (by simp)
  have hndseg : (f :: tl).Nodup := hnd.of_append_left
  have hfree : f ∉ tl := (List.nodup_cons.mp hndseg).1
  have hfl : f < 64 := hbd f (by simp)
  have hflen : f < p.slots.length := by omega
  have h28 : ((p.get f).backItemIdx + 1).toNat ≤ (p.get f).bytes.length := by omega
  have hfrhead := fragLive_head h0 hfb h28
  rw [queueLive_cons, hfrhead] at hl
  simp only [List.cons_append] at hl
  injection hl with hbval hlive
  by_cases hend : (p.get f).frontItemIdx = 27
  · -- front fragment exhausted: `isFrontItemAtEnd` branch of the code
    have hb27 : (p.get f).backItemIdx = 27 := by omega
    have hAtEnd : (p.get f).isFrontItemAtEnd = true := by
      simp [ByteQueueFragment.isFrontItemAtEnd, hend]
    have htail0 : ((p.get f).bytes.take ((p.get f).backItemIdx + 1).toNat).drop
        ((p.get f).frontItemIdx.toNat + 1) = [] := by
      apply List.drop_eq_nil_of_le
      simp only [List.length_take]
      omega
    rw [htail0, List.nil_append] at hlive
    cases hc with
    | single _ hnextf =>
      -- single-fragment queue: deallocate, handle becomes null
      have hnextb : ((p.get f).nextFragmentIdx == -1) = true := by simp [hnextf]
      rw [queueLive_nil] at hlive
      refine ⟨none, p.deallocate f, [], ?_, rfl, ?_, ?_, ?_, ?_, ?_⟩
      · simp [dequeue_byte, hEmpty, hAtEnd, hnextb, hbval]
      · rw [length_deallocate]; exact hlen
      · intro i hi
        exact get_deallocate_ne (by simpa using hi)
      · rw [queueLive_nil]; exact hlive
      · exact Or.inr ⟨rfl, freeList_deallocate⟩
      · simp [← hlive]
    | cons _ g rest h1 h2 h3 h4 h5 =>
      -- next fragment exists: promote it to front
      have hnextb : ((p.get f).nextFragmentIdx == -1) = false := by
        simp only [h1, beq_eq_false_iff_ne, ne_eq]
        omega
      have htoNat : (p.get f).nextFragmentIdx.toNat = g := by
        rw [h1]; exact Int.toNat_natCast g
      have hg64 : g < 64 := hbd g (by simp)
      have hglen : g < p.slots.length := by omega
      have hgf : g ≠ f := fun h => hfree (h ▸ by simp)
      have hgrest : g ∉ rest := (List.nodup_cons.mp (List.nodup_cons.mp hndseg).2).1
      obtain ⟨hg1, hg2, hg3, hg4, hg5⟩ := hfi g (by simp)
      refine ⟨some g,
        (p.modify g (fun g0 =>
          { g0 with backFragmentIdx := (p.get f).backFragmentIdx,
                    frontItemIdx := 0 })).deallocate f,
        g :: rest, ?_, ?_, ?_, ?_, ?_, ?_, ?_⟩
      · simp [dequeue_byte, hEmpty, hAtEnd, hnextb, hbval, htoNat]
      · -- MatchQ for the promoted queue
        have hpg : ((p.modify g (fun g0 =>
            { g0 with backFragmentIdx := (p.get f).backFragmentIdx,
                      frontItemIdx := 0 })).deallocate f).get g =
            { p.get g with backFragmentIdx := (p.get f).backFragmentIdx,
                           frontItemIdx := 0 } := by
          rw [get_deallocate_ne hgf, get_modify_self hglen]
        have hrest : ∀ i ∈ rest, ((p.modify g (fun g0 =>
            { g0 with backFragmentIdx := (p.get f).backFragmentIdx,
                      frontItemIdx := 0 })).deallocate f).get i = p.get i := by
          intro i hi
          have hif : i ≠ f := by
            intro h
            subst h
            exact hfree (List.mem_cons_of_mem g hi)
          have hig : i ≠ g := by
            intro h
            subst h
            exact hgrest hi
          rw [get_deallocate_ne hif, get_modify_ne hig]
        refine ⟨rfl, ?_, ?_, ?_⟩
        · refine chainInv_update_head h5 (fun i hi => ?_) ?_ ?_
          · rw [hrest i hi]
            exact ⟨rfl, rfl, rfl⟩
          · rw [hpg]
          · rw [hpg]
        · refine ⟨?_, ?_, ?_⟩
          · rw [hpg]
            show (p.get f).backFragmentIdx = _
            rw [hh.1]
            rw [List.getLastD_cons, List.getLastD_cons]
            cases rest with
            | nil => simp
            | cons r rs => simp [List.getLastD_cons]
          · intro habs
            rw [hpg] at habs
            simp at habs
          · intro _
            rw [hpg]
            show (0 : Int) ≤ (p.get g).backItemIdx
            exact h4
        · intro i hi
          rcases List.mem_cons.mp hi with rfl | hi'
          · rw [hpg]
            exact ⟨by norm_num, by norm_num, hg3, hg4, hg5⟩
          · rw [hrest i hi']
            exact hfi i (by simp [hi'])
      · rw [length_deallocate]
        rw [show ∀ q : FragmentPool, ∀ j g0, (q.modify j g0).slots.length =
          q.slots.length from fun q j g0 => length_setSlot]
        exact hlen
      · intro i hi
        simp only [List.mem_cons, not_or] at hi
        rw [get_deallocate_ne hi.1, get_modify_ne hi.2.1]
      · rw [queueLive_cons]
        have hfl1 : fragLive (((p.modify g (fun g0 =>
            { g0 with backFragmentIdx := (p.get f).backFragmentIdx,
                      frontItemIdx := 0 })).deallocate f).get g) =
            fragLive (p.get g) := by
          rw [get_deallocate_ne hgf, get_modify_self hglen]
          unfold fragLive
          rw [h3]
          rfl
        rw [hfl1]
        have hfl2 : queueLive ((p.modify g (fun g0 =>
            { g0 with backFragmentIdx := (p.get f).backFragmentIdx,
                      frontItemIdx := 0 })).deallocate f) rest =
            queueLive p rest := by
          apply queueLive_congr
          intro i hi
          have hif : i ≠ f := by
            intro h
            subst h
            exact hfree (List.mem_cons_of_mem g hi)
          have hig : i ≠ g := by
            intro h
            subst h
            exact hgrest hi
          rw [get_deallocate_ne hif, get_modify_ne hig]
        rw [hfl2, ← queueLive_cons, hlive]
      · exact Or.inr ⟨rfl, rfl⟩
      · constructor
        · intro habs; cases habs
        · intro habs
          exfalso
          rw [← hlive, queueLive_cons] at habs
          have : (fragLive (p.get g)).length =
              ((p.get g).backItemIdx + 1).toNat - (p.get g).frontItemIdx.toNat :=
            fragLive_length (by omega)
          have hpos : 0 < (fragLive (p.get g)).length := by omega
          rw [List.append_eq_nil] at habs
          rw [habs.1] at hpos
          simp at hpos
  · -- front fragment not exhausted: increment `frontItemIdx`
    have hAtEnd : (p.get f).isFrontItemAtEnd = false := by
      simp [ByteQueueFragment.isFrontItemAtEnd, hend]
    have hp1f : (p.modify f (fun g0 =>
        { g0 with frontItemIdx := g0.frontItemIdx + 1 })).get f =
        { p.get f with frontItemIdx := (p.get f).frontItemIdx + 1 } :=
      get_modify_self hflen
    by_cases hlast : (p.get f).backItemIdx = (p.get f).frontItemIdx
    · -- queue became empty: deallocate the single fragment
      have hIsE : ((p.modify f (fun g0 =>
          { g0 with frontItemIdx := g0.frontItemIdx + 1 })).get f).isEmpty = true := by
        rw [hp1f]
        simp only [ByteQueueFragment.isEmpty, Bool.or_eq_true, beq_iff_eq,
          decide_eq_true_eq]
        omega
      have htlnil : tl = [] := by
        cases hc with
        | single _ _ => rfl
        | cons _ g rest h1 h2 h3 h4 h5 => omega
      subst htlnil
      have htail0 : ((p.get f).bytes.take ((p.get f).backItemIdx + 1).toNat).drop
          ((p.get f).frontItemIdx.toNat + 1) = [] := by
        apply List.drop_eq_nil_of_le
        simp only [List.length_take]
        omega
      rw [htail0, List.nil_append, queueLive_nil] at hlive
      refine ⟨none, (p.modify f (fun g0 =>
          { g0 with frontItemIdx := g0.frontItemIdx + 1 })).deallocate f, [],
        ?_, rfl, ?_, ?_, ?_, ?_, ?_⟩
      · simp [dequeue_byte, hEmpty, hAtEnd, hIsE, hbval]
      · rw [length_deallocate, show ∀ q : FragmentPool, ∀ j g0,
          (q.modify j g0).slots.length = q.slots.length from
          fun q j g0 => length_setSlot]
        exact hlen
      · intro i hi
        have hif : i ≠ f := by simpa using hi
        rw [get_deallocate_ne hif, get_modify_ne hif]
      · rw [queueLive_nil]; exact hlive
      · exact Or.inr ⟨rfl, rfl⟩
      · simp [← hlive]
    · -- bytes remain: handle unchanged
      have hIsE : ((p.modify f (fun g0 =>
          { g0 with frontItemIdx := g0.frontItemIdx + 1 })).get f).isEmpty = false := by
        rw [hp1f]
        simp only [ByteQueueFragment.isEmpty, Bool.or_eq_false_iff,
          beq_eq_false_iff_ne, ne_eq, decide_eq_false_iff_not, not_lt]
        constructor
        · omega
        · omega
      have hframe_tl : ∀ i ∈ tl, (p.modify f (fun g0 =>
          { g0 with frontItemIdx := g0.frontItemIdx + 1 })).get i = p.get i := by
        intro i hi
        exact get_modify_ne (fun h => hfree (h ▸ hi))
      refine ⟨some f, p.modify f (fun g0 =>
          { g0 with frontItemIdx := g0.frontItemIdx + 1 }), f :: tl,
        ?_, ?_, ?_, ?_, ?_, ?_, ?_⟩
      · simp [dequeue_byte, hEmpty, hAtEnd, hIsE, hbval]
      · refine ⟨rfl, ?_, ?_, ?_⟩
        · refine chainInv_update_head hc (fun i hi => ?_) ?_ ?_
          · rw [hframe_tl i hi]
            exact ⟨rfl, rfl, rfl⟩
          · rw [hp1f]
          · rw [hp1f]
        · refine ⟨?_, ?_, ?_⟩
          · rw [hp1f]
            show (p.get f).backFragmentIdx = _
            exact hh.1
          · intro habs
            rw [hp1f] at habs
            have hc1 : (p.get f).frontItemIdx + 1 = -1 := habs
            exact absurd hc1 (by omega)
          · intro _
            rw [hp1f]
            show (p.get f).frontItemIdx + 1 ≤ (p.get f).backItemIdx
            omega
        · intro i hi
          rcases List.mem_cons.mp hi with hif | hi'
          · rw [hif, hp1f]
            exact ⟨by show -1 ≤ (p.get f).frontItemIdx + 1; omega,
              by show (p.get f).frontItemIdx + 1 ≤ 27; omega, hf3, hf4, hf5⟩
          · rw [hframe_tl i hi']
            exact hfi i (by simp [hi'])
      · rw [show ∀ q : FragmentPool, ∀ j g0, (q.modify j g0).slots.length =
          q.slots.length from fun q j g0 => length_setSlot]
        exact hlen
      · intro i hi
        have hif : i ≠ f := by
          intro h
          exact hi (h ▸ by simp)
        exact get_modify_ne hif
      · rw [queueLive_cons]
        have hfl1 : fragLive ((p.modify f (fun g0 =>
            { g0 with frontItemIdx := g0.frontItemIdx + 1 })).get f) =
            ((p.get f).bytes.take ((p.get f).backItemIdx + 1).toNat).drop
              ((p.get f).frontItemIdx.toNat + 1) := by
          rw [hp1f]
          unfold fragLive
          have : ((p.get f).frontItemIdx + 1).toNat =
              (p.get f).frontItemIdx.toNat + 1 := by omega
          rw [show ({ p.get f with
              frontItemIdx := (p.get f).frontItemIdx + 1 } :
              ByteQueueFragment).frontItemIdx = (p.get f).frontItemIdx + 1 from rfl,
            this]
        have hql : queueLive (p.modify f (fun g0 =>
            { g0 with frontItemIdx := g0.frontItemIdx + 1 })) tl =
            queueLive p tl :=
          queueLive_congr (fun i hi => by rw [hframe_tl i hi])
        rw [hfl1, hql, hlive]
      · exact Or.inl ⟨rfl, rfl⟩
      · constructor
        · intro habs; cases habs
        · intro habs
          exfalso
          rw [← hlive] at habs
          have hlenfrag : (((p.get f).bytes.take
              ((p.get f).backItemIdx + 1).toNat).drop
              ((p.get f).frontItemIdx.toNat + 1)).length =
              ((p.get f).backItemIdx + 1).toNat -
                ((p.get f).frontItemIdx.toNat + 1) := by
            simp only [List.length_drop, List.length_take]
            omega
          rw [List.append_eq_nil] at habs
          have := habs.1
          rw [this] at hlenfrag
          simp at hlenfrag
          omega

theorem enqueue_spec {p : FragmentPool} {f : Nat} {segs : List Nat} (b : Nat)
    (hlen : p.slots.length = 64)
    (hnd : (segs ++ p.freeList).Nodup)
    (hbd : ∀ i ∈ segs ++ p.freeList, i < 64)
    (hm : MatchQ p (some f) segs) :
    ∃ p' segs',
      enqueue_byte (some f) b p = (some f, p') ∧
      MatchQ p' (some f) segs' ∧
      p'.slots.length = 64 ∧
      (∀ i, i ∉ segs' → p'.get i = p.get i) ∧
      ((segs' = segs ∧ p'.freeList = p.freeList ∧
          queueLive p' segs' = queueLive p segs ++ [b % 256] ∧
          (p'.get (segs.getLastD f)).backItemIdx =
            (p.get (segs.getLastD f)).backItemIdx + 1 ∧
          ((p'.get f).frontItemIdx = 0 ∨
            (p'.get f).frontItemIdx = (p.get f).frontItemIdx)) ∨
        (∃ nb rest, p.freeList = nb :: rest ∧ segs' = segs ++ [nb] ∧
          p'.freeList = rest ∧
          queueLive p' segs' = queueLive p segs ++ [b % 256] ∧
          (p'.get nb).backItemIdx = 0 ∧
          (p'.get f).frontItemIdx = (p.get f).frontItemIdx ∧
          (p.get (segs.getLastD f)).backItemIdx = 27) ∨
        (p' = p ∧ segs' = segs ∧ p.freeList = [] ∧
          (p.get (segs.getLastD f)).isBackItemAtEnd = true)) := by
  obtain ⟨hhd, hc, hh, hfi⟩ := hm
  obtain ⟨tl, rfl⟩ : ∃ t, segs = f :: t := by
    cases segs with
    | nil => simp at hhd
    | cons a t =>
      simp only [List.head?_cons, Option.some.injEq] at hhd
      exact ⟨t, by rw [hhd]⟩
  obtain ⟨c, hlastc⟩ : ∃ c, (f :: tl).getLast? = some c := by
    cases h : (f :: tl).getLast? with
    | none => simp at h
    | some c => exact ⟨c, rfl⟩
  have hcd : (f :: tl).getLastD f = c := by
    rw [List.getLastD_eq_getLast?, hlastc]
    rfl
  have hcmem : c ∈ f :: tl := List.mem_of_mem_getLast? (by rw [hlastc]; rfl)
  have hcb : (p.get f).backFragmentIdx.toNat = c := by
    rw [hh.1, hcd]
    exact Int.toNat_natCast c
  have hndseg : (f :: tl).Nodup := hnd.of_append_left
  have hfree : f ∉ tl := (List.nodup_cons.mp hndseg).1
  have hfl : f < 64 := hbd f (by simp)
  have hflen : f < p.slots.length := by omega
  have hcl : c < 64 := by
    apply hbd c
    rcases List.mem_cons.mp hcmem with h | h
    · simp [h]
    · simp [h]
  have hclen : c < p.slots.length := by omega
  obtain ⟨hf1, hf2, hf3, hf4, hf5⟩ := hfi f (by simp)
  obtain ⟨hc1, hc2, hc3, hc4, hc5⟩ := hfi c hcmem
  by_cases hguard : (p.get c).isBackItemAtEnd = true
  · -- back fragment full: a new fragment is needed
    have hb27 : (p.get c).backItemIdx = 27 := by
      simpa [ByteQueueFragment.isBackItemAtEnd] using hguard
    -- the front fragment is not fresh (a fresh queue has back = -1 ≠ 27)
    have hfM1 : (p.get f).frontItemIdx ≠ -1 := by
      intro habs
      obtain ⟨hbk, hsg⟩ := hh.2.1 habs
      have : c = f := by
        rw [hsg] at hcd
        simpa using hcd.symm
      rw [this] at hb27
      omega
    cases hfreeEq : p.freeList with
    | nil =>
      -- allocation fails: complete no-op
      have halloc : p.allocate = none := by
        simp [FragmentPool.allocate, hfreeEq]
      refine ⟨p, f :: tl, ?_, ⟨rfl, hc, hh, hfi⟩, hlen, fun i _ => rfl,
        Or.inr (Or.inr ⟨rfl, rfl, rfl, by rw [hcd]; exact hguard⟩)⟩
      simp [enqueue_byte, enqueueAt, hcb, hguard, halloc]
    | cons nb rest =>
      have halloc : p.allocate = some (nb, { p with freeList := rest }) := by
        simp [FragmentPool.allocate, hfreeEq]
      have hnb64 : nb < 64 := hbd nb (by simp [hfreeEq])
      have hnbsegs : nb ∉ f :: tl := by
        have hdisj := List.disjoint_of_nodup_append hnd
        intro habs
        exact hdisj habs (by simp [hfreeEq])
      have hnbf : nb ≠ f := fun h => hnbsegs (h ▸ by simp)
      have hnbc : nb ≠ c := fun h => hnbsegs (h ▸ hcmem)
      obtain ⟨p4, hp4⟩ : ∃ q, q =
        ((({ p with freeList := rest }).modify f (fun fr =>
            { fr with backFragmentIdx := (nb : Int) })).modify c (fun fr =>
            { fr with nextFragmentIdx := (nb : Int) })).setSlot nb
          { backFragmentIdx := -1, nextFragmentIdx := -1, frontItemIdx := -1,
            backItemIdx := 0,
            bytes := (List.replicate 28 0).set 0 (b % 256) } := ⟨_, rfl⟩
      have hrun : enqueue_byte (some f) b p = (some f, p4) := by
        rw [hp4]
        simp [enqueue_byte, enqueueAt, hcb, hguard, halloc]
      have hlen1 : ({ p with freeList := rest } : FragmentPool).slots.length = 64 :=
        hlen
      have hget_nb : p4.get nb =
          { backFragmentIdx := -1, nextFragmentIdx := -1, frontItemIdx := -1,
            backItemIdx := 0,
            bytes := (List.replicate 28 0).set 0 (b % 256) } := by
        rw [hp4]
        apply get_setSlot_self
        simp [FragmentPool.modify, FragmentPool.setSlot]
        omega
      have hgets : ∀ i, i ≠ nb → i ≠ f → i ≠ c → p4.get i = p.get i := by
        intro i h1 h2 h3
        rw [hp4, get_setSlot_ne h1, get_modify_ne h3, get_modify_ne h2]
        rfl
      have hget_f : f ≠ c → p4.get f =
          { p.get f with backFragmentIdx := (nb : Int) } := by
        intro hfc
        rw [hp4, get_setSlot_ne hnbf.symm, get_modify_ne hfc,
          get_modify_self (by rw [hlen1]; omega)]
        rfl
      have hget_c : c ≠ f → p4.get c =
          { p.get c with nextFragmentIdx := (nb : Int) } := by
        intro hcf
        rw [hp4, get_setSlot_ne hnbc.symm, get_modify_self]
        · rw [get_modify_ne hcf]
          rfl
        · simp [FragmentPool.modify, FragmentPool.setSlot]
          omega
      have hget_eq : f = c → p4.get c =
          { p.get c with backFragmentIdx := (nb : Int),
                         nextFragmentIdx := (nb : Int) } := by
        intro hfc
        subst hfc
        rw [hp4, get_setSlot_ne hnbf.symm, get_modify_self]
        · rw [get_modify_self (by rw [hlen1]; omega)]
          rfl
        · simp [FragmentPool.modify, FragmentPool.setSlot]
          omega
      -- field-level description of the three touched slots
      have hfld_c_next : (p4.get c).nextFragmentIdx = (nb : Int) := by
        by_cases hfc : f = c
        · rw [hget_eq hfc]
        · rw [hget_c (Ne.symm hfc)]
      have hfld_c_back : (p4.get c).backItemIdx = (p.get c).backItemIdx := by
        by_cases hfc : f = c
        · rw [hget_eq hfc]
        · rw [hget_c (Ne.symm hfc)]
      have hfld_c_front : (p4.get c).frontItemIdx = (p.get c).frontItemIdx := by
        by_cases hfc : f = c
        · rw [hget_eq hfc]
        · rw [hget_c (Ne.symm hfc)]
      have hfld_f_backF : (p4.get f).backFragmentIdx = (nb : Int) := by
        by_cases hfc : f = c
        · rw [hfc, hget_eq hfc]
        · rw [hget_f hfc]
      have hfields : ∀ i ∈ f :: tl,
          (p4.get i).frontItemIdx = (p.get i).frontItemIdx ∧
          (p4.get i).backItemIdx = (p.get i).backItemIdx ∧
          (p4.get i).bytes = (p.get i).bytes ∧
          (i ≠ c → (p4.get i).nextFragmentIdx = (p.get i).nextFragmentIdx) := by
        intro i hi
        have hinb : i ≠ nb := fun h => hnbsegs (h ▸ hi)
        by_cases hif : i = f
        · subst hif
          by_cases hfc : i = c
          · rw [hfc, hget_eq hfc]
            exact ⟨rfl, rfl, rfl, fun h => absurd rfl h⟩
          · rw [hget_f hfc]
            exact ⟨rfl, rfl, rfl, fun _ => rfl⟩
        · by_cases hic : i = c
          · subst hic
            rw [hget_c (fun h => hif h)]
            exact ⟨rfl, rfl, rfl, fun h => absurd rfl h⟩
          · rw [hgets i hinb hif hic]
            exact ⟨rfl, rfl, rfl, fun _ => rfl⟩
      refine ⟨p4, (f :: tl) ++ [nb], hrun, ?_, ?_, ?_, ?_⟩
      · -- MatchQ of the grown chain
        refine ⟨by simp, ?_, ?_, ?_⟩
        · refine chainInv_snoc hc hlastc hndseg
            (fun i hi hic => ⟨((hfields i hi).2.2.2 hic),
              (hfields i hi).2.1, (hfields i hi).1⟩)
            hfld_c_next hfld_c_back hfld_c_front hb27 ?_ ?_ ?_
          · rw [hget_nb]
          · rw [hget_nb]
          · rw [hget_nb]
        · refine ⟨?_, ?_, ?_⟩
          · rw [hfld_f_backF, List.getLastD_concat]
          · intro habs
            rw [(hfields f (by simp)).1] at habs
            exact absurd habs hfM1
          · intro h0
            rw [(hfields f (by simp)).1, (hfields f (by simp)).2.1]
            rw [(hfields f (by simp)).1] at h0
            exact hh.2.2 h0
        · intro i hi
          rcases List.mem_append.mp hi with hi' | hi'
          · obtain ⟨e1, e2, e3, _⟩ := hfields i hi'
            obtain ⟨g1, g2, g3, g4, g5⟩ := hfi i hi'
            exact ⟨by rw [e1]; exact g1, by rw [e1]; exact g2,
              by rw [e2]; exact g3, by rw [e2]; exact g4, by rw [e3]; exact g5⟩
          · rcases List.mem_singleton.mp hi' with rfl
            rw [hget_nb]
            exact ⟨by norm_num, by norm_num, by norm_num, by norm_num, by simp⟩
      · rw [hp4]
        simp [FragmentPool.modify, FragmentPool.setSlot]
        exact hlen
      · intro i hi
        simp only [List.mem_append, List.mem_singleton, not_or] at hi
        have hinb : i ≠ nb := hi.2
        have hif : i ≠ f := fun h => hi.1 (h ▸ by simp)
        have hic : i ≠ c := fun h => hi.1 (h ▸ hcmem)
        exact hgets i hinb hif hic
      · refine Or.inr (Or.inl ⟨nb, rest, rfl, rfl, by rw [hp4]; rfl, ?_, ?_, ?_, ?_⟩)
        · rw [queueLive_append]
          have h1 : queueLive p4 (f :: tl) = queueLive p (f :: tl) := by
            apply queueLive_congr
            intro i hi
            obtain ⟨e1, e2, e3, _⟩ := hfields i hi
            unfold fragLive
            rw [e1, e2, e3]
          have h2 : queueLive p4 [nb] = [b % 256] := by
            rw [queueLive_cons, queueLive_nil, hget_nb]
            unfold fragLive
            have h00 : ((0 : Int) + 1).toNat = 0 + 1 := rfl
            rw [show ((List.replicate (n := 28) (0 : Nat)).set 0 (b % 256)).take
                (((0 : Int) + 1).toNat) = [b % 256] from by
              rw [h00, take_set_snoc (by simp)]
              simp]
            simp
          rw [h1, h2]
        · rw [hget_nb]
        · exact (hfields f (by simp)).1
        · rw [hcd]
          exact hb27
  · -- back fragment not full
    have hbne : (p.get c).backItemIdx ≠ 27 := by
      intro h
      exact hguard (by simp [ByteQueueFragment.isBackItemAtEnd, h])
    have hguard' : (p.get c).isBackItemAtEnd = false := by
      simp [ByteQueueFragment.isBackItemAtEnd, hbne]
    by_cases hfresh : (p.get f).frontItemIdx = -1
    · -- fresh queue: write the very first byte at position 0
      obtain ⟨hbk, hsg⟩ := hh.2.1 hfresh
      have htlnil : tl = [] := by
        have := hsg
        simp only [List.cons.injEq] at this
        exact this.2
      subst htlnil
      have hcf : f = c := by simpa using hcd
      subst hcf
      have hfreshb : ((p.get f).frontItemIdx == -1) = true := by simp [hfresh]
      have hrec2 : ({ p.get f with frontItemIdx := 0, backItemIdx := 0 } :
          ByteQueueFragment).setByte 0 b =
          { p.get f with frontItemIdx := 0, backItemIdx := 0,
                         bytes := (p.get f).bytes.set 0 (b % 256) } := by
        unfold ByteQueueFragment.setByte
        rw [if_pos (le_refl (0 : Int))]
        rfl
      obtain ⟨p', hp'⟩ : ∃ q, q = p.modify f (fun fr =>
          ({ fr with frontItemIdx := 0, backItemIdx := 0 }).setByte 0 b) := ⟨_, rfl⟩
      have hrun : enqueue_byte (some f) b p = (some f, p') := by
        rw [hp']
        simp [enqueue_byte, enqueueAt, hcb, hguard', hfreshb]
      have hgf : p'.get f =
          { p.get f with frontItemIdx := 0, backItemIdx := 0,
                         bytes := (p.get f).bytes.set 0 (b % 256) } := by
        rw [hp', get_modify_self hflen, hrec2]
      have hgets : ∀ i, i ≠ f → p'.get i = p.get i := by
        intro i hif
        rw [hp', get_modify_ne hif]
      have hnextf : (p.get f).nextFragmentIdx = -1 := by
        cases hc with
        | single _ hn => exact hn
      refine ⟨p', [f], hrun, ⟨rfl, ?_, ?_, ?_⟩, ?_, ?_,
        Or.inl ⟨rfl, ?_, ?_, ?_, ?_⟩⟩
      · exact ChainInv.single f (by rw [hgf]; exact hnextf)
      · refine ⟨?_, ?_, ?_⟩
        · rw [hgf]
          show (p.get f).backFragmentIdx = _
          rw [hh.1]
        · intro habs
          rw [hgf] at habs
          exact absurd habs (by norm_num)
        · intro _
          rw [hgf]
      · intro i hi
        have hif : i = f := List.mem_singleton.mp hi
        rw [hif, hgf]
        refine ⟨by norm_num, by norm_num, by norm_num, by norm_num, ?_⟩
        show ((p.get f).bytes.set 0 (b % 256)).length = 28
        simp [hf5]
      · rw [hp']
        simp [FragmentPool.modify, FragmentPool.setSlot]
        exact hlen
      · intro i hi
        exact hgets i (by simpa using hi)
      · rw [hp']
        rfl
      · rw [queueLive_cons, queueLive_nil, queueLive_cons, queueLive_nil, hgf]
        unfold fragLive
        rw [hbk, hfresh]
        have hset : ((p.get f).bytes.set 0 (b % 256)).take (((0 : Int) + 1).toNat) =
            [b % 256] := by
          rw [show (((0 : Int) + 1)).toNat = 0 + 1 from rfl,
            take_set_snoc (by omega)]
          simp
        rw [hset]
        simp
      · have he : (([f] : List Nat).getLastD f) = f := rfl
        rw [he, hgf, hbk]
        show (0 : Int) = -1 + 1
        decide
      · exact Or.inl (by rw [hgf])
    · -- normal append: bump the back fragment's backItemIdx
      have hfreshb : ((p.get f).frontItemIdx == -1) = false := by simp [hfresh]
      have hf0 : 0 ≤ (p.get f).frontItemIdx := by omega
      have hffb := hh.2.2 hf0
      -- the back fragment's backItemIdx is a real position below 27
      have hcbk : 0 ≤ (p.get c).backItemIdx ∧
          (p.get c).frontItemIdx.toNat ≤ ((p.get c).backItemIdx + 1).toNat := by
        by_cases hcf : c = f
        · subst hcf
          constructor
          · omega
          · omega
        · have hcmem' : c ∈ tl := by
            rcases List.mem_cons.mp hcmem with h | h
            · exact absurd h hcf
            · exact h
          obtain ⟨hfm, hbm⟩ := chainInv_tail_fields hc c hcmem'
          constructor
          · exact hbm
          · rw [hfm]
            omega
      obtain ⟨p', hp'⟩ : ∃ q, q = p.modify c (fun fr =>
          let fr1 : ByteQueueFragment := { fr with backItemIdx := fr.backItemIdx + 1 }
          fr1.setByte fr1.backItemIdx b) := ⟨_, rfl⟩
      have hrun : enqueue_byte (some f) b p = (some f, p') := by
        rw [hp']
        simp [enqueue_byte, enqueueAt, hcb, hguard', hfreshb]
      have hgc : p'.get c =
          { p.get c with backItemIdx := (p.get c).backItemIdx + 1,
                         bytes := (p.get c).bytes.set
                           ((p.get c).backItemIdx + 1).toNat (b % 256) } := by
        rw [hp', get_modify_self hclen]
        show ({ p.get c with backItemIdx := (p.get c).backItemIdx + 1 } :
          ByteQueueFragment).setByte ((p.get c).backItemIdx + 1) b = _
        unfold ByteQueueFragment.setByte
        rw [if_pos (show (0 : Int) ≤ (p.get c).backItemIdx + 1 by omega)]
      have hgets : ∀ i, i ≠ c → p'.get i = p.get i := by
        intro i hic
        rw [hp', get_modify_ne hic]
      have hfieldsf : (p'.get f).frontItemIdx = (p.get f).frontItemIdx ∧
          (p'.get f).backFragmentIdx = (p.get f).backFragmentIdx := by
        by_cases hfc : f = c
        · rw [hfc, hgc]
          exact ⟨rfl, rfl⟩
        · rw [hgets f hfc]
          exact ⟨rfl, rfl⟩
      refine ⟨p', f :: tl, hrun, ⟨rfl, ?_, ?_, ?_⟩, ?_, ?_,
        Or.inl ⟨rfl, ?_, ?_, ?_, ?_⟩⟩
      · refine chainInv_update_last hc hlastc hndseg
          (fun i hi hic => by rw [hgets i hic]; exact ⟨rfl, rfl, rfl⟩) ?_ ?_ ?_
        · rw [hgc]
        · rw [hgc]
        · intro _
          rw [hgc]
          show (0 : Int) ≤ (p.get c).backItemIdx + 1
          omega
      · refine ⟨?_, ?_, ?_⟩
        · rw [hfieldsf.2, hh.1]
        · intro habs
          rw [hfieldsf.1] at habs
          exact absurd habs hfresh
        · intro h0
          rw [hfieldsf.1]
          by_cases hfc : f = c
          · have hbe : (p'.get f).backItemIdx = (p.get c).backItemIdx + 1 := by
              rw [hfc, hgc]
            have hbb : (p.get c).backItemIdx = (p.get f).backItemIdx := by
              rw [hfc]
            rw [hbe, hbb]
            omega
          · rw [hgets f hfc]
            exact hffb
      · intro i hi
        by_cases hic : i = c
        · subst hic
          rw [hgc]
          refine ⟨hc1, hc2, by show -1 ≤ (p.get i).backItemIdx + 1; omega,
            by show (p.get i).backItemIdx + 1 ≤ 27; omega, ?_⟩
          show ((p.get i).bytes.set ((p.get i).backItemIdx + 1).toNat
            (b % 256)).length = 28
          simp [hc5]
        · rw [hgets i hic]
          exact hfi i hi
      · rw [hp']
        simp [FragmentPool.modify, FragmentPool.setSlot]
        exact hlen
      · intro i hi
        have hic : i ≠ c := fun h => hi (h ▸ hcmem)
        exact hgets i hic
      · rw [hp']
        rfl
      · obtain ⟨ys, hys⟩ := List.getLast?_eq_some_iff.mp hlastc
        rw [hys]
        have hcys : c ∉ ys := by
          have : (ys ++ [c]).Nodup := by rw [← hys]; exact hndseg
          have hd := List.disjoint_of_nodup_append this
          intro habs
          exact hd habs (by simp)
        rw [queueLive_append, queueLive_append, queueLive_cons, queueLive_nil,
          queueLive_cons, queueLive_nil]
        have h1 : queueLive p' ys = queueLive p ys := by
          apply queueLive_congr
          intro i hi
          rw [hgets i (fun h => hcys (h ▸ hi))]
        have h2 : fragLive (p'.get c) = fragLive (p.get c) ++ [b % 256] := by
          rw [hgc]
          exact fragLive_snoc (by omega) (by omega) hc5 hcbk.2
        rw [h1, h2]
        simp
      · rw [hcd, hgc]
      · exact Or.inr hfieldsf.1

theorem create_fail {p : FragmentPool} (h : p.freeList = []) :
    create_queue p = (none, p) := by
  simp [create_queue, FragmentPool.allocate, h]

theorem enqueue_none_fail {p : FragmentPool} (b : Nat) (h : p.freeList = []) :
    enqueue_byte none b p = (none, p) := by
  simp [enqueue_byte, create_fail h]

theorem create_spec {p : FragmentPool} {nb : Nat} {rest : List Nat}
    (hlen : p.slots.length = 64) (hfl : p.freeList = nb :: rest) (hnb : nb < 64) :
    ∃ p', create_queue p = (some nb, p') ∧
      p'.get nb = { backFragmentIdx := (nb : Int), nextFragmentIdx := -1,
                    frontItemIdx := -1, backItemIdx := -1,
                    bytes := List.replicate 28 0 } ∧
      (∀ i, i ≠ nb → p'.get i = p.get i) ∧
      p'.freeList = rest ∧ p'.slots.length = 64 ∧
      MatchQ p' (some nb) [nb] ∧ queueLive p' [nb] = [] := by
  have halloc : p.allocate = some (nb, { p with freeList := rest }) := by
    simp [FragmentPool.allocate, hfl]
  obtain ⟨p', hp'⟩ : ∃ q, q = ({ p with freeList := rest } :
      FragmentPool).setSlot nb
      { backFragmentIdx := (nb : Int), nextFragmentIdx := -1,
        frontItemIdx := -1, backItemIdx := -1,
        bytes := List.replicate 28 0 } := ⟨_, rfl⟩
  have hget : p'.get nb = { backFragmentIdx := (nb : Int), nextFragmentIdx := -1,
                            frontItemIdx := -1, backItemIdx := -1,
                            bytes := List.replicate 28 0 } := by
    rw [hp']
    exact get_setSlot_self (by rw [show ({ p with freeList := rest } :
      FragmentPool).slots = p.slots from rfl]; omega)
  refine ⟨p', ?_, hget, ?_, by rw [hp']; rfl,
    by rw [hp']; simpa [FragmentPool.setSlot] using hlen,
    ⟨rfl, ChainInv.single nb (by rw [hget]), ⟨?_, ?_, ?_⟩, ?_⟩, ?_⟩
  · rw [hp']
    simp [create_queue, halloc]
  · intro i hi
    rw [hp', get_setSlot_ne hi]
    rfl
  · rw [hget]
    simp
  · intro _
    rw [hget]
    exact ⟨rfl, rfl⟩
  · intro habs
    rw [hget] at habs
    exact absurd habs (by norm_num)
  · intro i hi
    rcases List.mem_singleton.mp hi with rfl
    rw [hget]
    exact ⟨by norm_num, by norm_num, by norm_num, by norm_num, by simp⟩
  · rw [queueLive_cons, queueLive_nil, hget]
    unfold fragLive
    simp

theorem enqueue_none_spec {p : FragmentPool} {nb : Nat} {rest : List Nat} (b : Nat)
    (hlen : p.slots.length = 64) (hfl : p.freeList = nb :: rest) (hnb : nb < 64) :
    ∃ p', enqueue_byte none b p = (some nb, p') ∧
      (∀ i, i ≠ nb → p'.get i = p.get i) ∧
      p'.freeList = rest ∧ p'.slots.length = 64 ∧
      MatchQ p' (some nb) [nb] ∧ queueLive p' [nb] = [b % 256] ∧
      (p'.get nb).frontItemIdx = 0 ∧ (p'.get nb).backItemIdx = 0 := by
  obtain ⟨p1, hcq, hget1, hgets1, hfl1, hlen1, hm1, _⟩ := create_spec hlen hfl hnb
  have hnblen : nb < p1.slots.length := by omega
  obtain ⟨p', hp'⟩ : ∃ q, q = p1.modify nb (fun fr =>
      ({ fr with frontItemIdx := 0, backItemIdx := 0 }).setByte 0 b) := ⟨_, rfl⟩
  have hrec : ({ p1.get nb with frontItemIdx := 0, backItemIdx := 0 } :
      ByteQueueFragment).setByte 0 b =
      { backFragmentIdx := (nb : Int), nextFragmentIdx := -1, frontItemIdx := 0,
        backItemIdx := 0, bytes := (List.replicate 28 0).set 0 (b % 256) } := by
    rw [hget1]
    unfold ByteQueueFragment.setByte
    rw [if_pos (le_refl (0 : Int))]
    rfl
  have hget : p'.get nb = { backFragmentIdx := (nb : Int), nextFragmentIdx := -1,
                            frontItemIdx := 0, backItemIdx := 0,
                            bytes := (List.replicate 28 0).set 0 (b % 256) } := by
    rw [hp', get_modify_self hnblen, hrec]
  have hcbnat : (p1.get nb).backFragmentIdx.toNat = nb := by
    rw [hget1]
    exact Int.toNat_natCast nb
  have hguard : (p1.get nb).isBackItemAtEnd = false := by
    rw [hget1]
    simp [ByteQueueFragment.isBackItemAtEnd]
  have hfresh : ((p1.get nb).frontItemIdx == -1) = true := by
    rw [hget1]
    simp
  refine ⟨p', ?_, ?_, by rw [hp']; exact hfl1,
    by rw [hp']; simpa [FragmentPool.modify, FragmentPool.setSlot] using hlen1,
    ⟨rfl, ChainInv.single nb (by rw [hget]), ⟨?_, ?_, ?_⟩, ?_⟩, ?_⟩
  · rw [hp']
    simp only [enqueue_byte, hcq]
    simp [enqueueAt, hcbnat, hguard, hfresh]
  · intro i hi
    rw [hp', get_modify_ne hi, hgets1 i hi]
  · rw [hget]
    simp
  · intro habs
    rw [hget] at habs
    exact absurd habs (by norm_num)
  · intro _
    rw [hget]
  · intro i hi
    rcases List.mem_singleton.mp hi with rfl
    rw [hget]
    exact ⟨by norm_num, by norm_num, by norm_num, by norm_num, by simp⟩
  refine ⟨?_, ?_⟩
  · rw [queueLive_cons, queueLive_nil, hget]
    unfold fragLive
    rw [show (((0 : Int) + 1)).toNat = 0 + 1 from rfl,
      take_set_snoc (by simp)]
    simp
  refine ⟨?_, ?_⟩
  · rw [hget]
  · rw [hget]

theorem destroyAux_none : ∀ (fuel : Nat) (p : FragmentPool),
    destroyAux fuel none p = (none, p)
  | 0, _ => rfl
  | _ + 1, _ => rfl

theorem destroyAux_drain : ∀ (segs : List Nat) (p : FragmentPool) (f : Nat)
    (fuel : Nat), ChainInv p segs → segs.head? = some f → segs.Nodup →
    segs.length ≤ fuel →
    ∃ p', destroyAux fuel (some f) p = (none, p') ∧
      p'.freeList = segs.reverse ++ p.freeList ∧
      p'.slots.length = p.slots.length ∧
      (∀ i, i ∉ segs → p'.get i = p.get i) := by
  intro segs
  induction segs with
  | nil => intro p f fuel _ hh _ _; simp at hh
  | cons f0 tl ih =>
    intro p f fuel hc hh hnd hfuel
    have hf : f = f0 := by
      simp only [List.head?_cons, Option.some.injEq] at hh
      exact hh.symm
    subst hf
    cases fuel with
    | zero => simp at hfuel
    | succ m =>
      cases hc with
      | single _ hn =>
        have hbeq : ((p.get f).nextFragmentIdx == -1) = true := by simp [hn]
        refine ⟨p.deallocate f, ?_, by simp [freeList_deallocate], length_deallocate,
          fun i hi => get_deallocate_ne (by simpa using hi)⟩
        show destroyAux (m + 1) (some f) p = (none, p.deallocate f)
        simp only [destroyAux, hbeq, if_true]
        exact destroyAux_none m (p.deallocate f)
      | cons _ g rest h1 h2 h3 h4 h5 =>
        have hfree : f ∉ g :: rest := (List.nodup_cons.mp hnd).1
        have hc1 : ChainInv (p.deallocate f) (g :: rest) := by
          refine chainInv_fields h5 (fun i hi => ?_)
          have hif : i ≠ f := by
            intro h
            subst h
            exact hfree hi
          rw [get_deallocate_ne hif]
          exact ⟨rfl, rfl, rfl⟩
        obtain ⟨p2, hrun2, hfl2, hlen2, hframe2⟩ :=
          ih (p.deallocate f) g m hc1 rfl (List.nodup_cons.mp hnd).2
            (by simpa using hfuel)
        refine ⟨p2, ?_, ?_, ?_, ?_⟩
        · show destroyAux (m + 1) (some f) p = (none, p2)
          have hbeq : ((p.get f).nextFragmentIdx == -1) = false := by
            simp only [h1, beq_eq_false_iff_ne, ne_eq]
            omega
          simp only [destroyAux, hbeq, Bool.false_eq_true, if_false]
          rw [show (p.get f).nextFragmentIdx.toNat = g from by
            rw [h1]; exact Int.toNat_natCast g]
          exact hrun2
        · rw [hfl2, freeList_deallocate]
          simp
        · rw [hlen2, length_deallocate]
        · intro i hi
          simp only [List.mem_cons, not_or] at hi
          rw [hframe2 i (by simp [hi.2.1, hi.2.2]),
            get_deallocate_ne hi.1]

theorem getD_set_eq {α : Type} {l : List α} {k : Nat} {v d : α}
    (h : k < l.length) : (l.set k v).getD k d = v := by
  rw [List.getD_eq_getElem?_getD, List.getElem?_set_self h]
  rfl

theorem getD_set_ne {α : Type} {l : List α} {k j : Nat} {v d : α}
    (h : j ≠ k) : (l.set k v).getD j d = l.getD j d := by
  rw [List.getD_eq_getElem?_getD, List.getElem?_set_ne (Ne.symm h),
    ← List.getD_eq_getElem?_getD]

theorem getD_append_left {α : Type} {l l' : List α} {j : Nat} {d : α}
    (h : j < l.length) : (l ++ l').getD j d = l.getD j d :=
  List.getD_append _ _ _ _ h

theorem getD_append_len {α : Type} {l l' : List α} {d : α} :
    (l ++ l').getD l.length d = l'.getD 0 d := by
  rw [List.getD_append_right _ _ _ _ (le_refl _)]
  simp

theorem flatten_set_decomp : ∀ (cs : List (List Nat)) (k : Nat), k < cs.length →
    ∃ A B, cs.flatten = A ++ (cs.getD k [] ++ B) ∧
      (∀ segs', (cs.set k segs').flatten = A ++ (segs' ++ B)) ∧
      (∀ j, j < cs.length → j ≠ k → ∀ x ∈ cs.getD j [], x ∈ A ++ B)
  | [], k, h => by simp at h
  | c :: cs, 0, _ => by
    refine ⟨[], cs.flatten, by simp, fun segs' => by simp, ?_⟩
    intro j hj hjk x hx
    cases j with
    | zero => exact absurd rfl hjk
    | succ j =>
      simp only [List.nil_append, List.mem_flatten]
      simp only [List.getD_cons_succ] at hx
      have hj' : j < cs.length := by simpa using hj
      exact ⟨cs.getD j [], by
        rw [List.getD_eq_getElem?_getD, List.getElem?_eq_getElem hj']
        exact List.getElem_mem hj', hx⟩
  | c :: cs, k + 1, h => by
    obtain ⟨A, B, h1, h2, h3⟩ := flatten_set_decomp cs k (by simpa using h)
    refine ⟨c ++ A, B, ?_, fun segs' => ?_, ?_⟩
    · simp only [List.flatten_cons, List.getD_cons_succ, h1, List.append_assoc]
    · simp only [List.set_cons_succ, List.flatten_cons, h2 segs', List.append_assoc]
    · intro j hj hjk x hx
      cases j with
      | zero =>
        simp only [List.getD_cons_zero] at hx
        simp [hx]
      | succ j =>
        simp only [List.getD_cons_succ] at hx
        have := h3 j (by simpa using hj) (fun hh => hjk (by rw [hh])) x hx
        rcases List.mem_append.mp this with h' | h'
        · simp [h']
        · simp [h']

theorem mem_flatten_of_getD {cs : List (List Nat)} {k : Nat} {x : Nat}
    (hk : k < cs.length) (hx : x ∈ cs.getD k []) : x ∈ cs.flatten := by
  rw [List.mem_flatten]
  refine ⟨cs.getD k [], ?_, hx⟩
  rw [List.getD_eq_getElem?_getD, List.getElem?_eq_getElem hk]
  exact List.getElem_mem hk

theorem nodup_extract {A segs B fl : List Nat}
    (h : ((A ++ (segs ++ B)) ++ fl).Nodup) : (segs ++ fl).Nodup := by
  refine h.sublist ?_
  have s1 : (segs ++ fl).Sublist ((segs ++ B) ++ fl) :=
    List.Sublist.append (List.sublist_append_left segs B) (List.Sublist.refl fl)
  exact s1.trans (List.Sublist.append
    (List.sublist_append_right A (segs ++ B)) (List.Sublist.refl fl))

theorem nodup_disjoint_mid {A segs B fl : List Nat}
    (h : ((A ++ (segs ++ B)) ++ fl).Nodup) :
    ∀ x, x ∈ A ++ B → x ∉ segs ∧ x ∉ fl := by
  intro x hx
  have hdfl := List.disjoint_of_nodup_append h
  have hin : x ∈ A ++ (segs ++ B) := by
    rcases List.mem_append.mp hx with h1 | h1
    · exact List.mem_append.mpr (Or.inl h1)
    · exact List.mem_append.mpr (Or.inr (List.mem_append.mpr (Or.inr h1)))
  refine ⟨?_, fun hfl => hdfl hin hfl⟩
  have hL := h.of_append_left
  rw [List.nodup_append] at hL
  obtain ⟨hA, hSB, hABd⟩ := hL
  rcases List.mem_append.mp hx with h1 | h1
  · intro hseg
    exact hABd h1 (List.mem_append.mpr (Or.inl hseg))
  · rw [List.nodup_append] at hSB
    intro hseg
    exact hSB.2.2 hseg h1

theorem nodup_length_le {l : List Nat} {n : Nat} (hnd : l.Nodup)
    (hbd : ∀ x ∈ l, x < n) : l.length ≤ n := by
  classical
  have h1 : l.toFinset.card = l.length := List.toFinset_card_of_nodup hnd
  have h2 : l.toFinset ⊆ Finset.range n := by
    intro x hx
    rw [List.mem_toFinset] at hx
    exact Finset.mem_range.mpr (hbd x hx)
  have h3 := Finset.card_le_card h2
  rw [h1, Finset.card_range] at h3
  exact h3

theorem nodup_shuffle_grow {A segs B fl : List Nat} {nb : Nat}
    (h : ((A ++ (segs ++ B)) ++ (nb :: fl)).Nodup) :
    ((A ++ ((segs ++ [nb]) ++ B)) ++ fl).Nodup := by
  refine (List.Perm.nodup_iff ?_).mpr h
  rw [← Multiset.coe_eq_coe]
  rw [show (nb :: fl) = [nb] ++ fl from rfl]
  simp only [← Multiset.coe_add]
  abel

theorem nodup_shuffle_pop {A segs B fl : List Nat} {f : Nat}
    (h : ((A ++ ((f :: segs) ++ B)) ++ fl).Nodup) :
    ((A ++ (segs ++ B)) ++ (f :: fl)).Nodup := by
  refine (List.Perm.nodup_iff ?_).mpr h
  rw [← Multiset.coe_eq_coe]
  rw [show (f :: fl) = [f] ++ fl from rfl, show (f :: segs) = [f] ++ segs from rfl]
  simp only [← Multiset.coe_add]
  abel

theorem nodup_shuffle_destroy {A segs B fl : List Nat}
    (h : ((A ++ (segs ++ B)) ++ fl).Nodup) :
    ((A ++ ([] ++ B)) ++ (segs.reverse ++ fl)).Nodup := by
  refine (List.Perm.nodup_iff ?_).mpr h
  rw [← Multiset.coe_eq_coe]
  simp only [← Multiset.coe_add, Multiset.coe_reverse, List.nil_append]
  abel

theorem bound_shuffle {A B fl segs segs' fl' : List Nat}
    (hb : ∀ i ∈ (A ++ (segs ++ B)) ++ fl, i < 64)
    (hseg : ∀ i ∈ segs', i ∈ segs ∨ i ∈ fl)
    (hfl : ∀ i ∈ fl', i ∈ segs ∨ i ∈ fl) :
    ∀ i ∈ (A ++ (segs' ++ B)) ++ fl', i < 64 := by
  intro i hi
  apply hb
  simp only [List.mem_append] at hi ⊢
  rcases hi with (h1 | h1 | h1) | h1
  · exact Or.inl (Or.inl h1)
  · rcases hseg i h1 with h2 | h2
    · exact Or.inl (Or.inr (Or.inl h2))
    · exact Or.inr h2
  · exact Or.inl (Or.inr (Or.inr h1))
  · rcases hfl i h1 with h2 | h2
    · exact Or.inl (Or.inr (Or.inl h2))
    · exact Or.inr h2

theorem matchQ_congr {p p' : FragmentPool} {h : Option Nat} {segs : List Nat}
    (hm : MatchQ p h segs) (hf : ∀ i ∈ segs, p'.get i = p.get i) :
    MatchQ p' h segs := by
  cases h with
  | none => exact hm
  | some f =>
    obtain ⟨h1, h2, h3, h4⟩ := hm
    have hmemf : f ∈ segs := by
      cases segs with
      | nil => simp at h1
      | cons a t =>
        simp only [List.head?_cons, Option.some.injEq] at h1
        simp [h1]
    refine ⟨h1, chainInv_fields h2
      (fun i hi => by rw [hf i hi]; exact ⟨rfl, rfl, rfl⟩), ?_, ?_⟩
    · obtain ⟨c1, c2, c3⟩ := h3
      refine ⟨by rw [hf f hmemf]; exact c1, ?_, ?_⟩
      · rw [hf f hmemf]
        exact c2
      · rw [hf f hmemf]
        exact c3
    · intro i hi
      rw [hf i hi]
      exact h4 i hi

theorem dequeue_empty_noop {p : FragmentPool} {f : Nat} {segs : List Nat}
    (hm : MatchQ p (some f) segs) (hl : queueLive p segs = []) :
    dequeue_byte (some f) p = (0, some f, p) := by
  have hne : ¬queueLive p segs ≠ [] := by simp [hl]
  by_cases hfm : (p.get f).frontItemIdx = -1
  · have hempty : (p.get f).isEmpty = true := by
      simp [ByteQueueFragment.isEmpty, hfm]
    simp [dequeue_byte, hempty]
  · exfalso
    apply hne
    obtain ⟨h1, h2, h3, h4⟩ := hm
    obtain ⟨tl, rfl⟩ : ∃ t, segs = f :: t := by
      cases segs with
      | nil => simp at h1
      | cons a t =>
        simp only [List.head?_cons, Option.some.injEq] at h1
        exact ⟨t, by rw [h1]⟩
    obtain ⟨g1, g2, g3, g4, g5⟩ := h4 f (by simp)
    have h0 : 0 ≤ (p.get f).frontItemIdx := by omega
    have hfb := h3.2.2 h0
    rw [queueLive_cons]
    have hlen : (fragLive (p.get f)).length =
        ((p.get f).backItemIdx + 1).toNat - (p.get f).frontItemIdx.toNat :=
      fragLive_length (by omega)
    intro habs
    rw [List.append_eq_nil] at habs
    rw [habs.1] at hlen
    simp only [List.length_nil] at hlen
    omega

theorem destroy_none_noop (p : FragmentPool) :
    destroy_queue none p = (none, p) :=
  destroyAux_none _ p

theorem inv_reassemble {p p' : FragmentPool} {qs : List (Option Nat)}
    {cs : List (List Nat)} {A B : List Nat} {k : Nat} {h' : Option Nat}
    {segs' : List Nat}
    (hk : k < qs.length) (hlencs : cs.length = qs.length)
    (hmatch : ∀ j, j < cs.length → MatchQ p (qs.getD j none) (cs.getD j []))
    (h2 : ∀ s', (cs.set k s').flatten = A ++ (s' ++ B))
    (h3 : ∀ j, j < cs.length → j ≠ k → ∀ x ∈ cs.getD j [], x ∈ A ++ B)
    (hm' : MatchQ p' h' segs')
    (hlen' : p'.slots.length = 64)
    (hframe : ∀ i, i ∈ A ++ B → p'.get i = p.get i)
    (hnd' : ((A ++ (segs' ++ B)) ++ p'.freeList).Nodup)
    (hbd' : ∀ i ∈ (A ++ (segs' ++ B)) ++ p'.freeList, i < 64) :
    Inv ⟨p', qs.set k h'⟩ := by
  refine ⟨cs.set k segs', by simp [hlencs], ?_, hlen',
    by rw [show (SysState.mk p' (qs.set k h')).pool.freeList = p'.freeList from rfl,
      h2 segs']; exact hnd',
    by rw [h2 segs']; exact hbd'⟩
  intro j hj
  have hj' : j < cs.length := by simpa using hj
  by_cases hjk : j = k
  · subst hjk
    show MatchQ p' ((qs.set j h').getD j none) ((cs.set j segs').getD j [])
    rw [getD_set_eq (by omega), getD_set_eq (by omega)]
    exact hm'
  · show MatchQ p' ((qs.set k h').getD j none) ((cs.set k segs').getD j [])
    rw [getD_set_ne hjk, getD_set_ne hjk]
    exact matchQ_congr (hmatch j hj')
      (fun i hi => hframe i (h3 j hj' hjk i hi))

theorem inv_append {p p' : FragmentPool} {qs : List (Option Nat)}
    {cs : List (List Nat)} {h' : Option Nat} {segs' : List Nat}
    (hlencs : cs.length = qs.length)
    (hmatch : ∀ j, j < cs.length → MatchQ p (qs.getD j none) (cs.getD j []))
    (hm' : MatchQ p' h' segs')
    (hlen' : p'.slots.length = 64)
    (hframe : ∀ i, i ∈ cs.flatten → p'.get i = p.get i)
    (hnd' : ((cs.flatten ++ segs') ++ p'.freeList).Nodup)
    (hbd' : ∀ i ∈ (cs.flatten ++ segs') ++ p'.freeList, i < 64) :
    Inv ⟨p', qs ++ [h']⟩ := by
  have hflat : (cs ++ [segs']).flatten = cs.flatten ++ segs' := by
    simp
  refine ⟨cs ++ [segs'], by simp [hlencs], ?_, hlen',
    by rw [show (SysState.mk p' (qs ++ [h'])).pool.freeList = p'.freeList from rfl,
      hflat]; exact hnd',
    by rw [hflat]; exact hbd'⟩
  intro j hj
  have hj' : j < cs.length + 1 := by simpa using hj
  by_cases hjlt : j < cs.length
  · show MatchQ p' ((qs ++ [h']).getD j none) ((cs ++ [segs']).getD j [])
    rw [getD_append_left (by omega), getD_append_left hjlt]
    exact matchQ_congr (hmatch j hjlt)
      (fun i hi => hframe i (mem_flatten_of_getD hjlt hi))
  · have hje : j = cs.length := by omega
    subst hje
    show MatchQ p' ((qs ++ [h']).getD cs.length none)
      ((cs ++ [segs']).getD cs.length [])
    have e1 : ((qs ++ [h']).getD cs.length none) = h' := by
      rw [hlencs, getD_append_len]
      rfl
    have e2 : ((cs ++ [segs']).getD cs.length []) = segs' := by
      rw [getD_append_len]
      rfl
    rw [e1, e2]
    exact hm'

theorem inv_newQueue {s : SysState} (hinv : Inv s) :
    Inv (applyOp s QueueOp.newQueue) := by
  obtain ⟨cs, hlencs, hmatch, hplen, hnd, hbd⟩ := hinv
  cases hfl : s.pool.freeList with
  | nil =>
    have hc := create_fail hfl
    show Inv ⟨(create_queue s.pool).2, s.queues ++ [(create_queue s.pool).1]⟩
    rw [hc]
    refine inv_append hlencs hmatch rfl hplen (fun i _ => rfl) ?_ ?_
    · simpa using hnd
    · intro i hi
      apply hbd
      simpa using hi
  | cons nb rest =>
    have hnb : nb < 64 := hbd nb (by simp [hfl])
    obtain ⟨p', hcq, hget1, hgets1, hfl1, hlen1, hm1, _⟩ :=
      create_spec hplen hfl hnb
    show Inv ⟨(create_queue s.pool).2, s.queues ++ [(create_queue s.pool).1]⟩
    rw [hcq]
    have hdisj := List.disjoint_of_nodup_append hnd
    refine inv_append hlencs hmatch hm1 hlen1 ?_ ?_ ?_
    · intro i hi
      refine hgets1 i (fun habs => ?_)
      exact hdisj hi (by rw [habs, hfl]; simp)
    · rw [hfl1, List.append_assoc]
      rw [hfl] at hnd
      exact hnd
    · intro i hi
      rw [hfl1] at hi
      apply hbd
      rw [hfl]
      simp only [List.mem_append, List.mem_singleton, List.mem_cons] at hi ⊢
      tauto

theorem bound_extract {A segs B fl : List Nat}
    (h : ∀ i ∈ (A ++ (segs ++ B)) ++ fl, i < 64) :
    ∀ i ∈ segs ++ fl, i < 64 := by
  intro i hi
  apply h
  simp only [List.mem_append] at hi ⊢
  tauto

theorem inv_enq {s : SysState} (hinv : Inv s) (k b : Nat) :
    Inv (applyOp s (QueueOp.enq k b)) := by
  obtain ⟨cs, hlencs, hmatch, hplen, hnd, hbd⟩ := hinv
  by_cases hk : k < s.queues.length
  · simp only [applyOp, if_pos hk]
    have hkcs : k < cs.length := by omega
    obtain ⟨A, B, h1, h2, h3⟩ := flatten_set_decomp cs k hkcs
    have hndL : ((A ++ (cs.getD k [] ++ B)) ++ s.pool.freeList).Nodup := by
      rw [← h1]
      exact hnd
    have hbdL : ∀ i ∈ (A ++ (cs.getD k [] ++ B)) ++ s.pool.freeList, i < 64 := by
      rw [← h1]
      exact hbd
    have hdisj := nodup_disjoint_mid hndL
    cases hh : s.queues.getD k none with
    | none =>
      have hchain : cs.getD k [] = [] := by
        have hm := hmatch k hkcs
        rw [hh] at hm
        exact hm
      rw [hchain] at hndL hbdL hdisj
      cases hfl : s.pool.freeList with
      | nil =>
        rw [enqueue_none_fail b hfl]
        refine inv_reassemble hk hlencs hmatch h2 h3 rfl hplen
          (fun i _ => rfl) ?_ ?_
        · exact hndL
        · exact hbdL
      | cons nb rest =>
        have hnb : nb < 64 := hbd nb (by simp [hfl])
        obtain ⟨p', hrun, hgets, hfl', hlen', hm', hlive'⟩ :=
          enqueue_none_spec b hplen hfl hnb
        rw [hrun]
        refine inv_reassemble hk hlencs hmatch h2 h3 hm' hlen' ?_ ?_ ?_
        · intro i hi
          refine hgets i (fun habs => ?_)
          have hnfl := (hdisj i hi).2
          rw [habs, hfl] at hnfl
          exact hnfl (by simp)
        · rw [hfl']
          rw [hfl] at hndL
          exact nodup_shuffle_grow hndL
        · rw [hfl']
          rw [hfl] at hbdL
          refine bound_shuffle hbdL ?_ ?_
          · intro i hi
            rcases List.mem_singleton.mp hi with rfl
            exact Or.inr (by simp)
          · intro i hi
            exact Or.inr (by simp [hi])
    | some f =>
      have hmk : MatchQ s.pool (some f) (cs.getD k []) := by
        have hm := hmatch k hkcs
        rw [hh] at hm
        exact hm
      obtain ⟨p', segs', hrun, hm', hlen', hframe, hcases⟩ :=
        enqueue_spec b hplen (nodup_extract hndL) (bound_extract hbdL) hmk
      rw [hrun]
      refine inv_reassemble hk hlencs hmatch h2 h3 hm' hlen' ?_ ?_ ?_
      · intro i hi
        apply hframe
        rcases hcases with ⟨hs, _, _⟩ | ⟨nb, rest, hfljk, hs, _, _⟩ | ⟨_, hs, _, _⟩
        · rw [hs]
          exact (hdisj i hi).1
        · rw [hs]
          intro habs
          rcases List.mem_append.mp habs with hA | hA
          · exact (hdisj i hi).1 hA
          · have hieq : i = nb := List.mem_singleton.mp hA
            have hnfl := (hdisj i hi).2
            rw [hieq, hfljk] at hnfl
            exact hnfl (by simp)
        · rw [hs]
          exact (hdisj i hi).1
      · rcases hcases with ⟨hs, hfl', _⟩ | ⟨nb, rest, hfljk, hs, hfl', _⟩ |
          ⟨hp, hs, _, _⟩
        · rw [hs, hfl']
          exact hndL
        · rw [hs, hfl']
          rw [hfljk] at hndL
          exact nodup_shuffle_grow hndL
        · rw [hs, hp]
          exact hndL
      · rcases hcases with ⟨hs, hfl', _⟩ | ⟨nb, rest, hfljk, hs, hfl', _⟩ |
          ⟨hp, hs, _, _⟩
        · rw [hs, hfl']
          exact hbdL
        · rw [hs, hfl']
          rw [hfljk] at hbdL
          refine bound_shuffle hbdL ?_ ?_
          · intro i hi
            rcases List.mem_append.mp hi with hA | hA
            · exact Or.inl hA
            · rcases List.mem_singleton.mp hA with rfl
              exact Or.inr (by simp)
          · intro i hi
            exact Or.inr (by simp [hi])
        · rw [hs, hp]
          exact hbdL
  · simp only [applyOp, if_neg hk]
    exact ⟨cs, hlencs, hmatch, hplen, hnd, hbd⟩

theorem inv_deq {s : SysState} (hinv : Inv s) (k : Nat) :
    Inv (applyOp s (QueueOp.deq k)) := by
  obtain ⟨cs, hlencs, hmatch, hplen, hnd, hbd⟩ := hinv
  by_cases hk : k < s.queues.length
  · simp only [applyOp, if_pos hk]
    have hkcs : k < cs.length := by omega
    obtain ⟨A, B, h1, h2, h3⟩ := flatten_set_decomp cs k hkcs
    have hndL : ((A ++ (cs.getD k [] ++ B)) ++ s.pool.freeList).Nodup := by
      rw [← h1]
      exact hnd
    have hbdL : ∀ i ∈ (A ++ (cs.getD k [] ++ B)) ++ s.pool.freeList, i < 64 := by
      rw [← h1]
      exact hbd
    have hdisj := nodup_disjoint_mid hndL
    cases hh : s.queues.getD k none with
    | none =>
      have hchain : cs.getD k [] = [] := by
        have hm := hmatch k hkcs
        rw [hh] at hm
        exact hm
      rw [hchain] at hndL hbdL
      rw [show dequeue_byte none s.pool = (0, none, s.pool) from rfl]
      refine inv_reassemble hk hlencs hmatch h2 h3 rfl hplen
        (fun i _ => rfl) hndL hbdL
    | some f =>
      have hmk : MatchQ s.pool (some f) (cs.getD k []) := by
        have hm := hmatch k hkcs
        rw [hh] at hm
        exact hm
      cases hql : queueLive s.pool (cs.getD k []) with
      | nil =>
        rw [dequeue_empty_noop hmk hql]
        exact inv_reassemble hk hlencs hmatch h2 h3 hmk hplen
          (fun i _ => rfl) hndL hbdL
      | cons b live =>
        obtain ⟨h', p', segs', hrun, hm', hlen', hframe, hlive', hflc, hiff⟩ :=
          dequeue_spec hplen (nodup_extract hndL) (bound_extract hbdL) hmk hql
        rw [hrun]
        refine inv_reassemble hk hlencs hmatch h2 h3 hm' hlen' ?_ ?_ ?_
        · intro i hi
          exact hframe i ((hdisj i hi).1)
        · rcases hflc with ⟨hs, hfl'⟩ | ⟨hs, hfl'⟩
          · rw [hs, hfl']
            exact hndL
          · rw [hfl']
            rw [hs] at hndL
            exact nodup_shuffle_pop hndL
        · rcases hflc with ⟨hs, hfl'⟩ | ⟨hs, hfl'⟩
          · rw [hs, hfl']
            exact hbdL
          · rw [hfl']
            rw [hs] at hbdL
            refine bound_shuffle hbdL ?_ ?_
            · intro i hi
              exact Or.inl (List.mem_cons_of_mem f hi)
            · intro i hi
              rcases List.mem_cons.mp hi with rfl | hi'
              · exact Or.inl (by simp)
              · exact Or.inr hi'
  · simp only [applyOp, if_neg hk]
    exact ⟨cs, hlencs, hmatch, hplen, hnd, hbd⟩

theorem inv_destroy {s : SysState} (hinv : Inv s) (k : Nat) :
    Inv (applyOp s (QueueOp.destroy k)) := by
  obtain ⟨cs, hlencs, hmatch, hplen, hnd, hbd⟩ := hinv
  by_cases hk : k < s.queues.length
  · simp only [applyOp, if_pos hk]
    have hkcs : k < cs.length := by omega
    obtain ⟨A, B, h1, h2, h3⟩ := flatten_set_decomp cs k hkcs
    have hndL : ((A ++ (cs.getD k [] ++ B)) ++ s.pool.freeList).Nodup := by
      rw [← h1]
      exact hnd
    have hbdL : ∀ i ∈ (A ++ (cs.getD k [] ++ B)) ++ s.pool.freeList, i < 64 := by
      rw [← h1]
      exact hbd
    have hdisj := nodup_disjoint_mid hndL
    cases hh : s.queues.getD k none with
    | none =>
      have hchain : cs.getD k [] = [] := by
        have hm := hmatch k hkcs
        rw [hh] at hm
        exact hm
      rw [hchain] at hndL hbdL
      rw [destroy_none_noop]
      exact inv_reassemble hk hlencs hmatch h2 h3 rfl hplen
        (fun i _ => rfl) hndL hbdL
    | some f =>
      have hmk : MatchQ s.pool (some f) (cs.getD k []) := by
        have hm := hmatch k hkcs
        rw [hh] at hm
        exact hm
      obtain ⟨hhd, hc, hhi, hfi⟩ := hmk
      have hndseg : (cs.getD k []).Nodup := (nodup_extract hndL).of_append_left
      have hbdseg : ∀ x ∈ cs.getD k [], x < 64 := by
        intro x hx
        exact bound_extract hbdL x (List.mem_append.mpr (Or.inl hx))
      have hfuel : (cs.getD k []).length ≤ s.pool.slots.length := by
        rw [hplen]
        exact nodup_length_le hndseg hbdseg
      obtain ⟨p2, hrun2, hfl2, hlen2, hframe2⟩ :=
        destroyAux_drain (cs.getD k []) s.pool f s.pool.slots.length hc hhd
          hndseg hfuel
      rw [show destroy_queue (some f) s.pool =
        destroyAux s.pool.slots.length (some f) s.pool from rfl, hrun2]
      refine inv_reassemble hk hlencs hmatch h2 h3 rfl
        (by rw [hlen2]; exact hplen) ?_ ?_ ?_
      · intro i hi
        exact hframe2 i ((hdisj i hi).1)
      · rw [hfl2]
        exact nodup_shuffle_destroy hndL
      · rw [hfl2]
        refine bound_shuffle hbdL ?_ ?_
        · intro i hi
          simp at hi
        · intro i hi
          rcases List.mem_append.mp hi with hi' | hi'
          · exact Or.inl (List.mem_reverse.mp hi')
          · exact Or.inr hi'
  · simp only [applyOp, if_neg hk]
    exact ⟨cs, hlencs, hmatch, hplen, hnd, hbd⟩

theorem inv_applyOp {s : SysState} (hinv : Inv s) (op : QueueOp) :
    Inv (applyOp s op) := by
  cases op with
  | newQueue => exact inv_newQueue hinv
  | enq k b => exact inv_enq hinv k b
  | deq k => exact inv_deq hinv k
  | destroy k => exact inv_destroy hinv k

theorem inv_initState : Inv initState := by
  refine ⟨[], rfl, ?_, by simp [initState, initialPool], ?_, ?_⟩
  · intro k hk
    simp at hk
  · simp [initState, initialPool, List.nodup_range]
  · intro i hi
    simp only [initState, initialPool, List.flatten_nil, List.nil_append] at hi
    exact List.mem_range.mp hi

theorem inv_foldl : ∀ (ops : List QueueOp) (s : SysState), Inv s →
    Inv (ops.foldl applyOp s)
  | [], s, h => h
  | op :: ops, s, h => inv_foldl ops (applyOp s op) (inv_applyOp h op)

/-- Every state reachable by running API calls from the initial state
satisfies the global representation invariant. -/
theorem inv_runOps (ops : List QueueOp) : Inv (runOps ops) :=
  inv_foldl ops initState inv_initState

theorem nodup_snoc_shuffle {segs fl : List Nat} {nb : Nat}
    (h : (segs ++ (nb :: fl)).Nodup) : ((segs ++ [nb]) ++ fl).Nodup := by
  refine (List.Perm.nodup_iff ?_).mpr h
  rw [← Multiset.coe_eq_coe, show (nb :: fl) = [nb] ++ fl from rfl]
  simp only [← Multiset.coe_add]
  abel

theorem nodup_pop_shuffle {segs fl : List Nat} {f : Nat}
    (h : ((f :: segs) ++ fl).Nodup) : (segs ++ (f :: fl)).Nodup := by
  refine (List.Perm.nodup_iff ?_).mpr h
  rw [← Multiset.coe_eq_coe, show (f :: fl) = [f] ++ fl from rfl,
    show (f :: segs) = [f] ++ segs from rfl]
  simp only [← Multiset.coe_add]
  abel

theorem getLastD_default_irrel {l : List Nat} (h : l ≠ []) (a c : Nat) :
    l.getLastD a = l.getLastD c := by
  obtain ⟨y, hy⟩ : ∃ y, l.getLast? = some y := by
    cases hgl : l.getLast? with
    | none => exact absurd (by simpa using hgl) h
    | some y => exact ⟨y, rfl⟩
  rw [List.getLastD_eq_getLast?, List.getLastD_eq_getLast?, hy]
  rfl

theorem enq_phase_step {p : FragmentPool} {h : Option Nat} {segs : List Nat}
    (b : Nat) (hr : EnqRep p h segs)
    (hcap : (queueLive p segs).length < 1792) :
    ∃ f' p' segs', enqueue_byte h b p = (some f', p') ∧
      EnqRep p' (some f') segs' ∧
      queueLive p' segs' = queueLive p segs ++ [b % 256] := by
  obtain ⟨⟨hlen, hnd, hbd, hm⟩, hcnt, hshape⟩ := hr
  cases h with
  | none =>
    have hsegs : segs = [] := hm
    subst hsegs
    cases hfl : p.freeList with
    | nil =>
      rw [hfl] at hcnt
      simp at hcnt
    | cons nb rest =>
      have hnb : nb < 64 := hbd nb (by simp [hfl])
      obtain ⟨p', hrun, hgets, hfl', hlen', hm', hlive', hfr0, hbk0⟩ :=
        enqueue_none_spec b hlen hfl hnb
      refine ⟨nb, p', [nb], hrun, ⟨⟨hlen', ?_, ?_, hm'⟩, ?_, ?_⟩,
        by rw [hlive']; rfl⟩
      · rw [hfl']
        rw [hfl] at hnd
        exact hnd
      · intro i hi
        rw [hfl'] at hi
        apply hbd
        rw [hfl]
        simpa using hi
      · rw [hfl']
        rw [hfl] at hcnt
        simp only [List.length_nil, List.length_cons] at hcnt
        simp only [List.length_cons, List.length_nil]
        omega
      · intro f' hf'
        have hfe : nb = f' := by injection hf'
        subst hfe
        refine ⟨hfr0, ?_⟩
        rw [hlive']
        simp only [List.length_cons, List.length_nil, List.getLastD_cons,
          List.getLastD_nil]
        rw [hbk0]
        rfl
  | some f =>
    obtain ⟨hfr0, hlivelen⟩ := hshape f rfl
    have hne : segs ≠ [] := by
      intro habs
      rw [habs] at hm
      obtain ⟨h1, _⟩ := hm
      simp at h1
    obtain ⟨c, hlastc⟩ : ∃ c, segs.getLast? = some c := by
      cases hgl : segs.getLast? with
      | none => exact absurd (by simpa using hgl) hne
      | some c => exact ⟨c, rfl⟩
    have hcd0 : segs.getLastD 0 = c := by
      rw [List.getLastD_eq_getLast?, hlastc]
      rfl
    have hcdf : segs.getLastD f = c := by
      rw [List.getLastD_eq_getLast?, hlastc]
      rfl
    have hcmem : c ∈ segs := List.mem_of_mem_getLast? (by rw [hlastc]; rfl)
    have hlenpos : 0 < segs.length := List.length_pos.mpr hne
    -- the last fragment has already received at least one byte
    have hb0 : 0 ≤ (p.get c).backItemIdx := by
      obtain ⟨h1, h2, h3, h4⟩ := hm
      obtain ⟨tl, rfl⟩ : ∃ t, segs = f :: t := by
        cases segs with
        | nil => simp at h1
        | cons a t =>
          simp only [List.head?_cons, Option.some.injEq] at h1
          exact ⟨t, by rw [h1]⟩
      by_cases hcf : c = f
      · subst hcf
        have := h3.2.2 (by rw [hfr0])
        omega
      · have hcmem' : c ∈ tl := by
          rcases List.mem_cons.mp hcmem with h' | h'
          · exact absurd h' hcf
          · exact h'
        exact (chainInv_tail_fields h2 c hcmem').2
    obtain ⟨p', segs', hrun, hm', hlen', hframe, hcases⟩ :=
      enqueue_spec b hlen hnd hbd hm
    rcases hcases with ⟨hs, hfl', hlv, hbk1, hfr'⟩ |
      ⟨nb, rest, hflq, hs, hfl', hlv, hbk0, hfr', hbk27⟩ |
      ⟨hp, hs, hfle, hfull⟩
    · rw [hs] at hlv hm'
      have hm2 : MatchQ p' (some f) segs := hm'
      have hlv2 : queueLive p' segs = queueLive p segs ++ [b % 256] := hlv
      refine ⟨f, p', segs, hrun, ⟨⟨hlen', by rw [hfl']; exact hnd,
        by rw [hfl']; exact hbd, hm2⟩, by rw [hfl']; exact hcnt, ?_⟩, hlv2⟩
      intro f' hf'
      have hfe : f = f' := by injection hf'
      subst hfe
      constructor
      · rcases hfr' with h' | h'
        · exact h'
        · rw [h', hfr0]
      · rw [hlv2, List.length_append, hlivelen]
        rw [hcd0]
        rw [hcdf] at hbk1
        rw [hbk1]
        simp only [List.length_cons, List.length_nil]
        omega
    · subst hs
      refine ⟨f, p', segs ++ [nb], hrun, ⟨⟨hlen', ?_, ?_, hm'⟩, ?_, ?_⟩, hlv⟩
      · rw [hfl']
        rw [hflq] at hnd
        exact nodup_snoc_shuffle hnd
      · rw [hfl']
        intro i hi
        apply hbd
        rw [hflq]
        simp only [List.mem_append, List.mem_singleton, List.mem_cons] at hi ⊢
        tauto
      · rw [hfl']
        rw [hflq] at hcnt
        simp only [List.length_append, List.length_cons, List.length_nil] at hcnt ⊢
        omega
      · intro f' hf'
        have hfe : f = f' := by injection hf'
        subst hfe
        refine ⟨by rw [hfr', hfr0], ?_⟩
        rw [hlv, List.length_append, hlivelen]
        rw [List.getLastD_concat]
        rw [hbk0]
        rw [hcd0] at hlivelen ⊢
        rw [hcdf] at hbk27
        rw [hbk27]
        simp only [List.length_append, List.length_cons, List.length_nil]
        omega
    · exfalso
      have hb27 : (p.get (segs.getLastD f)).backItemIdx = 27 := by
        simpa [ByteQueueFragment.isBackItemAtEnd] using hfull
      rw [hcdf] at hb27
      rw [hfle] at hcnt
      rw [hcd0, hb27] at hlivelen
      have h27 : ((27 : Int)).toNat = 27 := rfl
      rw [h27] at hlivelen
      simp only [List.length_nil] at hcnt
      omega

theorem enqueueAll_phase : ∀ (bs : List Nat) (p : FragmentPool)
    (h : Option Nat) (segs : List Nat), EnqRep p h segs →
    (queueLive p segs).length + bs.length ≤ 1792 →
    ∃ h' p' segs', enqueueAll h bs p = (h', p') ∧ EnqRep p' h' segs' ∧
      queueLive p' segs' = queueLive p segs ++ bs.map (· % 256) := by
  intro bs
  induction bs with
  | nil =>
    intro p h segs hr _
    exact ⟨h, p, segs, rfl, hr, by simp⟩
  | cons b bs ih =>
    intro p h segs hr hcap
    obtain ⟨f1, p1, segs1, hrun1, hr1, hlv1⟩ := enq_phase_step b hr
      (by simp only [List.length_cons] at hcap; omega)
    obtain ⟨h2, p2, segs2, hrun2, hr2, hlv2⟩ := ih p1 (some f1) segs1 hr1
      (by
        rw [hlv1, List.length_append]
        simp only [List.length_cons, List.length_nil] at hcap ⊢
        omega)
    refine ⟨h2, p2, segs2, ?_, hr2, ?_⟩
    · show enqueueAll h (b :: bs) p = (h2, p2)
      simp only [enqueueAll, hrun1]
      exact hrun2
    · rw [hlv2, hlv1]
      simp

theorem dequeueAll_drain : ∀ (live : List Nat) (p : FragmentPool)
    (h : Option Nat) (segs : List Nat), DeqRep p h segs →
    queueLive p segs = live → (h = none ∨ live ≠ []) →
    ∃ p', dequeueAll h live.length p = (live, none, p') := by
  intro live
  induction live with
  | nil =>
    intro p h segs hr hql hor
    have hnone : h = none := by
      rcases hor with h1 | h1
      · exact h1
      · exact absurd rfl h1
    subst hnone
    exact ⟨p, rfl⟩
  | cons b live ih =>
    intro p h segs hr hql hor
    obtain ⟨hlen, hnd, hbd, hm⟩ := hr
    cases h with
    | none =>
      have hsegs : segs = [] := hm
      rw [hsegs, queueLive_nil] at hql
      simp at hql
    | some f =>
      obtain ⟨h', p', segs', hrun, hm', hlen', hframe, hlive', hflc, hiff⟩ :=
        dequeue_spec hlen hnd hbd hm hql
      have hr' : DeqRep p' h' segs' := by
        refine ⟨hlen', ?_, ?_, hm'⟩
        · rcases hflc with ⟨hs, hfl'⟩ | ⟨hs, hfl'⟩
          · rw [hs, hfl']
            exact hnd
          · rw [hfl']
            rw [hs] at hnd
            exact nodup_pop_shuffle hnd
        · rcases hflc with ⟨hs, hfl'⟩ | ⟨hs, hfl'⟩
          · rw [hs, hfl']
            exact hbd
          · rw [hfl']
            intro i hi
            apply hbd
            rw [hs]
            simp only [List.mem_append, List.mem_cons] at hi ⊢
            tauto
      have hor' : h' = none ∨ live ≠ [] := by
        by_cases hl0 : live = []
        · exact Or.inl (hiff.mpr hl0)
        · exact Or.inr hl0
      obtain ⟨p2, hrun2⟩ := ih p' h' segs' hr' hlive' hor'
      refine ⟨p2, ?_⟩
      show dequeueAll (some f) (b :: live).length p = (b :: live, none, p2)
      simp only [List.length_cons, dequeueAll, hrun, hrun2]

theorem enqRep_initial : EnqRep initialPool none [] := by
  refine ⟨⟨by simp [initialPool], ?_, ?_, rfl⟩, by simp [initialPool], ?_⟩
  · simp [initialPool, List.nodup_range]
  · intro i hi
    simp only [initialPool, List.nil_append] at hi
    exact List.mem_range.mp hi
  · intro f hf
    cases hf

theorem enqueue_full_fail {p : FragmentPool} {f : Nat} (b : Nat)
    (hfl : p.freeList = [])
    (hguard : (p.get ((p.get f).backFragmentIdx.toNat)).isBackItemAtEnd = true) :
    enqueue_byte (some f) b p = (some f, p) := by
  have halloc : p.allocate = none := by simp [FragmentPool.allocate, hfl]
  simp [enqueue_byte, enqueueAt, hguard, halloc]

theorem mem_chain_of_flatten {cs : List (List Nat)} {i : Nat}
    (hi : i ∈ cs.flatten) : ∃ k, k < cs.length ∧ i ∈ cs.getD k [] := by
  rw [List.mem_flatten] at hi
  obtain ⟨l, hl, hil⟩ := hi
  obtain ⟨k, hk, hlk⟩ := List.mem_iff_getElem.mp hl
  refine ⟨k, hk, ?_⟩
  rw [List.getD_eq_getElem?_getD, List.getElem?_eq_getElem hk]
  show i ∈ cs[k]
  rw [hlk]
  exact hil

theorem matchQ_fragInv {p : FragmentPool} {h : Option Nat} {segs : List Nat}
    (hm : MatchQ p h segs) : ∀ i ∈ segs, FragInv (p.get i) := by
  cases h with
  | none =>
    have hs : segs = [] := hm
    subst hs
    intro i hi
    simp at hi
  | some f => exact hm.2.2.2

theorem matchQ_full_of_next {p : FragmentPool} {h : Option Nat}
    {segs : List Nat} (hm : MatchQ p h segs) :
    ∀ i ∈ segs, (p.get i).nextFragmentIdx ≠ -1 →
      (p.get i).backItemIdx = 27 := by
  cases h with
  | none =>
    have hs : segs = [] := hm
    subst hs
    intro i hi
    simp at hi
  | some f => exact chainInv_full_of_next hm.2.1

/-- C1: enqueueing exactly N bytes (any byte sequence that fits in the
pool, N ≤ 64·28 = 1792) into one queue starting from the fresh pool and
the null handle, then calling `dequeue_byte` N times, returns exactly the
same N bytes in FIFO order, and after the last dequeue the handle is
"empty" (null).  This holds whether the bytes fit in one fragment or span
several (in particular for N > 28, where the 29th enqueue allocates a new
fragment). -/
theorem C1_fifo_roundtrip (bs : List Nat) (hN : bs.length ≤ 1792)
    (hB : ∀ x ∈ bs, x < 256) :
    (dequeueAll (enqueueAll none bs initialPool).1 bs.length
        (enqueueAll none bs initialPool).2).1 = bs ∧
    (dequeueAll (enqueueAll none bs initialPool).1 bs.length
        (enqueueAll none bs initialPool).2).2.1 = none := by
  obtain ⟨h', p', segs', hrun, hr', hlv⟩ :=
    enqueueAll_phase bs initialPool none [] enqRep_initial
      (by rw [queueLive_nil]; simpa using hN)
  have hmap : bs.map (· % 256) = bs := by
    have hc : ∀ x ∈ bs, x % 256 = id x :=
      fun x hx => Nat.mod_eq_of_lt (hB x hx)
    rw [List.map_congr_left hc, List.map_id]
  rw [hmap] at hlv
  rw [show queueLive initialPool [] = [] from rfl, List.nil_append] at hlv
  have hor : h' = none ∨ bs ≠ [] := by
    cases bs with
    | nil =>
      left
      exact (congrArg Prod.fst hrun).symm
    | cons x xs =>
      right
      simp
  obtain ⟨p2, hrun2⟩ := dequeueAll_drain bs p' h' segs' hr'.1 hlv hor
  rw [hrun]
  constructor
  · rw [hrun2]
  · rw [hrun2]

/-- Witness for C1 at the 29-byte sequence 0,…,28, which spans two
fragments. -/
theorem C1_fifo_roundtrip_witness :
    (List.range 29).length ≤ 1792 ∧ (∀ x ∈ List.range 29, x < 256) ∧
    ((dequeueAll (enqueueAll none (List.range 29) initialPool).1
        (List.range 29).length
        (enqueueAll none (List.range 29) initialPool).2).1 = List.range 29 ∧
      (dequeueAll (enqueueAll none (List.range 29) initialPool).1
        (List.range 29).length
        (enqueueAll none (List.range 29) initialPool).2).2.1 = none) :=
  ⟨by decide, by decide, C1_fifo_roundtrip (List.range 29) (by decide) (by decide)⟩

/-- C3: when pool allocation fails (free list exhausted), `create_queue`
and `enqueue_byte` are complete no-ops: `create_queue` returns the null
handle with the pool untouched; `enqueue_byte` on a null handle leaves the
handle null, drops the byte and changes nothing; and `enqueue_byte` on a
queue whose back fragment is full leaves the handle and the entire pool
(hence the queue's contents) exactly as before the call. -/
theorem C3_oom_noop (p : FragmentPool) (b f : Nat)
    (hfl : p.freeList = []) :
    create_queue p = (none, p) ∧
    enqueue_byte none b p = (none, p) ∧
    ((p.get ((p.get f).backFragmentIdx.toNat)).isBackItemAtEnd = true →
      enqueue_byte (some f) b p = (some f, p)) :=
  ⟨create_fail hfl, enqueue_none_fail b hfl,
    fun hg => enqueue_full_fail b hfl hg⟩

/-- Witness for C3 on a concrete exhausted pool whose slot 0 is a full
back fragment of itself. -/
theorem C3_oom_noop_witness :
    (FragmentPool.mk (List.replicate 64
      { backFragmentIdx := 0, nextFragmentIdx := -1, frontItemIdx := 0,
        backItemIdx := 27, bytes := List.replicate 28 0 }) []).freeList = [] ∧
    (create_queue (FragmentPool.mk (List.replicate 64
      { backFragmentIdx := 0, nextFragmentIdx := -1, frontItemIdx := 0,
        backItemIdx := 27, bytes := List.replicate 28 0 }) []) =
      (none, FragmentPool.mk (List.replicate 64
        { backFragmentIdx := 0, nextFragmentIdx := -1, frontItemIdx := 0,
          backItemIdx := 27, bytes := List.replicate 28 0 }) []) ∧
    enqueue_byte none 5 (FragmentPool.mk (List.replicate 64
      { backFragmentIdx := 0, nextFragmentIdx := -1, frontItemIdx := 0,
        backItemIdx := 27, bytes := List.replicate 28 0 }) []) =
      (none, FragmentPool.mk (List.replicate 64
        { backFragmentIdx := 0, nextFragmentIdx := -1, frontItemIdx := 0,
          backItemIdx := 27, bytes := List.replicate 28 0 }) []) ∧
    (((FragmentPool.mk (List.replicate 64
        { backFragmentIdx := 0, nextFragmentIdx := -1, frontItemIdx := 0,
          backItemIdx := 27, bytes := List.replicate 28 0 }) []).get
        (((FragmentPool.mk (List.replicate 64
          { backFragmentIdx := 0, nextFragmentIdx := -1, frontItemIdx := 0,
            backItemIdx := 27, bytes := List.replicate 28 0 }) []).get
          0).backFragmentIdx.toNat)).isBackItemAtEnd = true →
      enqueue_byte (some 0) 5 (FragmentPool.mk (List.replicate 64
        { backFragmentIdx := 0, nextFragmentIdx := -1, frontItemIdx := 0,
          backItemIdx := 27, bytes := List.replicate 28 0 }) []) =
        (some 0, FragmentPool.mk (List.replicate 64
          { backFragmentIdx := 0, nextFragmentIdx := -1, frontItemIdx := 0,
            backItemIdx := 27, bytes := List.replicate 28 0 }) []))) :=
  ⟨rfl, C3_oom_noop _ 5 0 rfl⟩

/-- C9: the reference workload of `main` (create q0; enqueue 0,1 into q0;
create q1; enqueue 3 into q1; enqueue 2 into q0; enqueue 4 into q1;
dequeue q0 twice; enqueue 5 into q0 and 6 into q1; dequeue q0 twice;
destroy q0; dequeue q1 three times; destroy q1) dequeues 0,1,2,5 from q0
and 3,4,6 from q1 in that call order; each queue's outputs coincide with
running its operations alone (the two queues never read or write each
other's bytes); and afterwards all 64 pool slots are back on the free
list. -/
theorem C9_reference_workload :
    (runOpsOut mainWorkload).2 =
      [(0, 0), (0, 1), (0, 2), (0, 5), (1, 3), (1, 4), (1, 6)] ∧
    ((runOpsOut mainWorkload).2.filter (fun x => x.1 == 0)).map Prod.snd =
      (runOpsOut workloadQ0only).2.map Prod.snd ∧
    ((runOpsOut mainWorkload).2.filter (fun x => x.1 == 1)).map Prod.snd =
      (runOpsOut workloadQ1only).2.map Prod.snd ∧
    (runOpsOut mainWorkload).1.pool.freeList.length = 64 ∧
    (runOpsOut mainWorkload).1.pool.freeList.Nodup ∧
    (∀ i ∈ (runOpsOut mainWorkload).1.pool.freeList, i < 64) := by
  decide

/-- C10: whenever `dequeue_byte` fails (null handle or logically empty
front fragment), the sentinel byte it returns is exactly 0. -/
theorem C10_sentinel_zero (p : FragmentPool) (front : Option Nat)
    (h : front = none ∨ ∃ f, front = some f ∧ (p.get f).isEmpty = true) :
    (dequeue_byte front p).1 = 0 := by
  rcases h with rfl | ⟨f, rfl, hemp⟩
  · rfl
  · simp [dequeue_byte, hemp]

/-- Witness for C10 on the null handle over the fresh pool. -/
theorem C10_sentinel_zero_witness :
    ((none : Option Nat) = none ∨ ∃ f, (none : Option Nat) = some f ∧
      (initialPool.get f).isEmpty = true) ∧
    (dequeue_byte none initialPool).1 = 0 :=
  ⟨Or.inl rfl, C10_sentinel_zero initialPool none (Or.inl rfl)⟩

theorem queueLive_ne_nil_of_used {p : FragmentPool} {f : Nat}
    {segs : List Nat} (hm : MatchQ p (some f) segs)
    (hf : (p.get f).frontItemIdx ≠ -1) : queueLive p segs ≠ [] := by
  obtain ⟨h1, h2, h3, h4⟩ := hm
  obtain ⟨tl, rfl⟩ : ∃ t, segs = f :: t := by
    cases segs with
    | nil => simp at h1
    | cons a t =>
      simp only [List.head?_cons, Option.some.injEq] at h1
      exact ⟨t, by rw [h1]⟩
  obtain ⟨g1, g2, g3, g4, g5⟩ := h4 f (by simp)
  have h0 : 0 ≤ (p.get f).frontItemIdx := by omega
  have hfb := h3.2.2 h0
  rw [queueLive_cons]
  have hlen : (fragLive (p.get f)).length =
      ((p.get f).backItemIdx + 1).toNat - (p.get f).frontItemIdx.toNat :=
    fragLive_length (by omega)
  intro habs
  rw [List.append_eq_nil] at habs
  rw [habs.1] at hlen
  simp only [List.length_nil] at hlen
  omega

/-- C2: in every reachable state, the queues together own at most 64 pool
slots; and when they own all 64 (free list exhausted with no intervening
deallocation), every further allocation fails with OutOfMemory:
`create_queue` returns the null handle, `enqueue_byte` on a null handle
stays null, and `enqueue_byte` that needs a new fragment (back fragment
full) leaves the queue and pool untouched. -/
theorem C2_capacity_bound (ops : List QueueOp) :
    ∃ cs : List (List Nat),
      cs.length = (runOps ops).queues.length ∧
      (∀ k, k < cs.length → MatchQ (runOps ops).pool
        ((runOps ops).queues.getD k none) (cs.getD k [])) ∧
      cs.flatten.length ≤ 64 ∧
      (cs.flatten.length = 64 →
        (runOps ops).pool.freeList = [] ∧
        create_queue (runOps ops).pool = (none, (runOps ops).pool) ∧
        (∀ b, enqueue_byte none b (runOps ops).pool =
          (none, (runOps ops).pool)) ∧
        (∀ f b, ((runOps ops).pool.get
            (((runOps ops).pool.get f).backFragmentIdx.toNat)).isBackItemAtEnd
              = true →
          enqueue_byte (some f) b (runOps ops).pool =
            (some f, (runOps ops).pool))) := by
  obtain ⟨cs, hlencs, hmatch, hplen, hnd, hbd⟩ := inv_runOps ops
  refine ⟨cs, hlencs, hmatch, ?_, ?_⟩
  · exact nodup_length_le hnd.of_append_left
      (fun x hx => hbd x (List.mem_append.mpr (Or.inl hx)))
  · intro h64
    have htot : (cs.flatten ++ (runOps ops).pool.freeList).length ≤ 64 :=
      nodup_length_le hnd hbd
    rw [List.length_append, h64] at htot
    have hfl : (runOps ops).pool.freeList = [] :=
      List.length_eq_zero.mp (by omega)
    exact ⟨hfl, create_fail hfl, fun b => enqueue_none_fail b hfl,
      fun f b hg => enqueue_full_fail b hfl hg⟩

/-- C4: `dequeue_byte` fails exactly when the handle is null or the front
fragment is logically empty (`frontItemIdx = -1` or
`backItemIdx < frontItemIdx`, which is what `isEmpty` computes), and on
failure it returns the sentinel 0, leaves the handle unchanged and
performs no mutation at all; on any valid non-failing call something is
mutated or the handle changes.  The hypothesis only requires the handle
to point inside the 64-slot pool, as every reachable handle does. -/
theorem C4_dequeue_fail_iff (p : FragmentPool) (front : Option Nat)
    (hv : ∀ g, front = some g → g < p.slots.length) :
    dequeue_byte front p = (0, front, p) ↔
      (front = none ∨ ∃ f, front = some f ∧ (p.get f).isEmpty = true) := by
  constructor
  · intro heq
    cases front with
    | none => exact Or.inl rfl
    | some f =>
      by_cases hemp : (p.get f).isEmpty = true
      · exact Or.inr ⟨f, rfl, hemp⟩
      · exfalso
        have hempf : (p.get f).isEmpty = false := by
          simp only [Bool.not_eq_true] at hemp
          exact hemp
        have hflen : f < p.slots.length := hv f rfl
        by_cases hend : (p.get f).isFrontItemAtEnd = true
        · by_cases hnext : ((p.get f).nextFragmentIdx == -1) = true
          · simp [dequeue_byte, hempf, hend, hnext, Prod.ext_iff] at heq
          · have hnextf : ((p.get f).nextFragmentIdx == -1) = false := by
              simp only [Bool.not_eq_true] at hnext
              exact hnext
            simp only [dequeue_byte, hempf, hend, hnextf, Bool.false_eq_true,
              if_false, if_true, Prod.ext_iff] at heq
            have hfl := congrArg List.length
              (congrArg FragmentPool.freeList heq.2.2)
            simp only [freeList_deallocate, FragmentPool.modify,
              FragmentPool.setSlot, List.length_cons] at hfl
            omega
        · have hendf : (p.get f).isFrontItemAtEnd = false := by
            simp only [Bool.not_eq_true] at hend
            exact hend
          by_cases hemp2 : ((p.modify f fun g0 =>
              { g0 with frontItemIdx := g0.frontItemIdx + 1 }).get f).isEmpty
              = true
          · simp [dequeue_byte, hempf, hendf, hemp2, Prod.ext_iff] at heq
          · have hemp2f : ((p.modify f fun g0 =>
                { g0 with frontItemIdx := g0.frontItemIdx + 1 }).get f).isEmpty
                = false := by
              simp only [Bool.not_eq_true] at hemp2
              exact hemp2
            simp only [dequeue_byte, hempf, hendf, hemp2f, Bool.false_eq_true,
              if_false, Prod.ext_iff] at heq
            have hpf := congrArg (fun q => (q.get f).frontItemIdx) heq.2.2
            simp only at hpf
            rw [get_modify_self hflen] at hpf
            have : (p.get f).frontItemIdx + 1 = (p.get f).frontItemIdx := hpf
            omega
  · intro hc
    rcases hc with rfl | ⟨f, rfl, hemp⟩
    · rfl
    · simp [dequeue_byte, hemp]

/-- Witness for C4 on handle `some 0` over the fresh pool (whose slot 0 is
zeroed, hence not logically empty: both indices are 0). -/
theorem C4_dequeue_fail_iff_witness :
    (∀ g, (some 0 : Option Nat) = some g → g < initialPool.slots.length) ∧
    (dequeue_byte (some 0) initialPool = (0, some 0, initialPool) ↔
      ((some 0 : Option Nat) = none ∨ ∃ f, (some 0 : Option Nat) = some f ∧
        (initialPool.get f).isEmpty = true)) :=
  ⟨by decide, C4_dequeue_fail_iff initialPool (some 0) (by decide)⟩

/-- C5: `destroy_queue` on a null handle is a no-op that leaves the pool
untouched; on any reachable handle it terminates (the chain is finite,
acyclic and bounded by the 64-slot pool, so the pool-size fuel of the
loop suffices), returns every fragment of the queue to the free list, and
sets the handle to null. -/
theorem C5_destroy_total (ops : List QueueOp) :
    destroy_queue none (runOps ops).pool = (none, (runOps ops).pool) ∧
    ∀ k f, (runOps ops).queues.getD k none = some f →
      ∃ segs p', segs.head? = some f ∧ ChainInv (runOps ops).pool segs ∧
        segs.length ≤ 64 ∧
        destroy_queue (some f) (runOps ops).pool = (none, p') ∧
        p'.freeList = segs.reverse ++ (runOps ops).pool.freeList := by
  obtain ⟨cs, hlencs, hmatch, hplen, hnd, hbd⟩ := inv_runOps ops
  refine ⟨destroy_none_noop _, ?_⟩
  intro k f hk
  have hklt : k < (runOps ops).queues.length := by
    by_contra hge
    rw [List.getD_eq_default _ _ (by omega)] at hk
    simp at hk
  have hkcs : k < cs.length := by omega
  have hmk : MatchQ (runOps ops).pool (some f) (cs.getD k []) := by
    have hm := hmatch k hkcs
    rw [hk] at hm
    exact hm
  obtain ⟨A, B, h1, h2, h3⟩ := flatten_set_decomp cs k hkcs
  have hndL : ((A ++ (cs.getD k [] ++ B)) ++ (runOps ops).pool.freeList).Nodup := by
    rw [← h1]
    exact hnd
  have hbdL : ∀ i ∈ (A ++ (cs.getD k [] ++ B)) ++ (runOps ops).pool.freeList,
      i < 64 := by
    rw [← h1]
    exact hbd
  have hndseg : (cs.getD k []).Nodup := (nodup_extract hndL).of_append_left
  have hbdseg : ∀ x ∈ cs.getD k [], x < 64 :=
    fun x hx => bound_extract hbdL x (List.mem_append.mpr (Or.inl hx))
  have hlen64 : (cs.getD k []).length ≤ 64 := nodup_length_le hndseg hbdseg
  obtain ⟨p2, hrun2, hfl2, _, _⟩ := destroyAux_drain (cs.getD k [])
    (runOps ops).pool f (runOps ops).pool.slots.length hmk.2.1 hmk.1 hndseg
    (by rw [hplen]; exact hlen64)
  exact ⟨cs.getD k [], p2, hmk.1, hmk.2.1, hlen64, hrun2, hfl2⟩

/-- C6 counterexample: the claim "in no reachable state does a queue
exist with zero live bytes while still holding pool memory" is false as
stated: right after a bare `create_queue` call (the very first operation
of `main`), queue 0's handle points at fragment 0, which is a valid
single-fragment chain holding no live bytes, while slot 0 is off the free
list. -/
theorem C6_counterexample :
    (runOps [QueueOp.newQueue]).queues.getD 0 none = some 0 ∧
    ChainInv (runOps [QueueOp.newQueue]).pool [0] ∧
    (0 : Nat) ∉ (runOps [QueueOp.newQueue]).pool.freeList ∧
    queueLive (runOps [QueueOp.newQueue]).pool [0] = [] := by
  refine ⟨by decide, ?_, by decide, by decide⟩
  exact ChainInv.single 0 (by decide)

/-- C6 (amended): a queue is created lazily by `enqueue_byte` on a null
handle (the new front fragment is exactly the free-list head, and null is
returned when the free list is empty); in every reachable state, the only
way a queue holds pool memory with zero live bytes is as a freshly
created single fragment with `frontItemIdx = backItemIdx = -1` (produced
by `create_queue` before any byte is enqueued); and the instant the last
live byte is dequeued, the handle becomes null and the fragment goes back
on the free list within that same `dequeue_byte` call. -/
theorem C6_lazy_lifecycle (ops : List QueueOp) :
    (∀ b, (enqueue_byte none b (runOps ops).pool).1 =
      (runOps ops).pool.freeList.head?) ∧
    ∀ k f, (runOps ops).queues.getD k none = some f →
      ∃ segs, segs.head? = some f ∧ ChainInv (runOps ops).pool segs ∧
        (queueLive (runOps ops).pool segs = [] →
          segs = [f] ∧ ((runOps ops).pool.get f).frontItemIdx = -1 ∧
            ((runOps ops).pool.get f).backItemIdx = -1) ∧
        (∀ b, queueLive (runOps ops).pool segs = [b] →
          ∃ p', dequeue_byte (some f) (runOps ops).pool = (b, none, p') ∧
            p'.freeList = f :: (runOps ops).pool.freeList) := by
  obtain ⟨cs, hlencs, hmatch, hplen, hnd, hbd⟩ := inv_runOps ops
  constructor
  · intro b
    cases hfl : (runOps ops).pool.freeList with
    | nil =>
      rw [enqueue_none_fail b hfl]
      rfl
    | cons nb rest =>
      have hnb : nb < 64 := hbd nb (by simp [hfl])
      obtain ⟨p', hrun, _⟩ := enqueue_none_spec b hplen hfl hnb
      rw [hrun]
      rfl
  · intro k f hk
    have hklt : k < (runOps ops).queues.length := by
      by_contra hge
      rw [List.getD_eq_default _ _ (by omega)] at hk
      simp at hk
    have hkcs : k < cs.length := by omega
    have hmk : MatchQ (runOps ops).pool (some f) (cs.getD k []) := by
      have hm := hmatch k hkcs
      rw [hk] at hm
      exact hm
    obtain ⟨A, B, h1, h2, h3⟩ := flatten_set_decomp cs k hkcs
    have hndL : ((A ++ (cs.getD k [] ++ B)) ++
        (runOps ops).pool.freeList).Nodup := by
      rw [← h1]
      exact hnd
    have hbdL : ∀ i ∈ (A ++ (cs.getD k [] ++ B)) ++
        (runOps ops).pool.freeList, i < 64 := by
      rw [← h1]
      exact hbd
    refine ⟨cs.getD k [], hmk.1, hmk.2.1, ?_, ?_⟩
    · intro hlive
      by_cases hfm : ((runOps ops).pool.get f).frontItemIdx = -1
      · obtain ⟨hbk, hsg⟩ := hmk.2.2.1.2.1 hfm
        exact ⟨hsg, hfm, hbk⟩
      · exact absurd hlive (queueLive_ne_nil_of_used hmk hfm)
    · intro b hlive
      obtain ⟨h', p', segs', hrun, hm', hlen', hframe, hlive', hflc, hiff⟩ :=
        dequeue_spec hplen (nodup_extract hndL) (bound_extract hbdL) hmk hlive
      have hnone : h' = none := hiff.mpr rfl
      subst hnone
      have hsegs' : segs' = [] := hm'
      subst hsegs'
      rcases hflc with ⟨hs, _⟩ | ⟨hs, hfl'⟩
      · exfalso
        have := hmk.1
        rw [← hs] at this
        simp at this
      · exact ⟨p', hrun, hfl'⟩

/-- C7: in every reachable state, every fragment owned by a live queue
has `frontItemIdx` and `backItemIdx` in the range [-1, 27], so every
payload access the operations make (reads at `frontItemIdx` on the
non-empty path, writes at index 0 or at the bumped `backItemIdx`) stays
inside the 28-byte payload buffer; in particular a fragment that is not
logically empty has a read position `frontItemIdx ≥ 0`. -/
theorem C7_index_ranges (ops : List QueueOp) :
    ∃ cs : List (List Nat),
      cs.length = (runOps ops).queues.length ∧
      (∀ k, k < cs.length → MatchQ (runOps ops).pool
        ((runOps ops).queues.getD k none) (cs.getD k [])) ∧
      ∀ i ∈ cs.flatten,
        -1 ≤ ((runOps ops).pool.get i).frontItemIdx ∧
        ((runOps ops).pool.get i).frontItemIdx ≤ 27 ∧
        -1 ≤ ((runOps ops).pool.get i).backItemIdx ∧
        ((runOps ops).pool.get i).backItemIdx ≤ 27 ∧
        (((runOps ops).pool.get i).isEmpty = false →
          0 ≤ ((runOps ops).pool.get i).frontItemIdx) := by
  obtain ⟨cs, hlencs, hmatch, hplen, hnd, hbd⟩ := inv_runOps ops
  refine ⟨cs, hlencs, hmatch, ?_⟩
  intro i hi
  obtain ⟨k, hk, hik⟩ := mem_chain_of_flatten hi
  obtain ⟨a1, a2, a3, a4, a5⟩ := matchQ_fragInv (hmatch k hk) i hik
  refine ⟨a1, a2, a3, a4, ?_⟩
  intro hempf
  simp only [ByteQueueFragment.isEmpty, Bool.or_eq_false_iff,
    beq_eq_false_iff_ne, ne_eq, decide_eq_false_iff_not, not_lt] at hempf
  omega

/-- C8: in every reachable state, every queue-owned fragment that has a
next fragment (`nextFragmentIdx ≠ -1`) is full on the back end
(`backItemIdx = 27`); equivalently, the dequeue branch that increments
`frontItemIdx` and then frees the fragment because the queue became
logically empty can only fire for a single-fragment queue. -/
theorem C8_linked_implies_full (ops : List QueueOp) :
    ∃ cs : List (List Nat),
      cs.length = (runOps ops).queues.length ∧
      (∀ k, k < cs.length → MatchQ (runOps ops).pool
        ((runOps ops).queues.getD k none) (cs.getD k [])) ∧
      ∀ i ∈ cs.flatten,
        ((runOps ops).pool.get i).nextFragmentIdx ≠ -1 →
        ((runOps ops).pool.get i).backItemIdx = 27 := by
  obtain ⟨cs, hlencs, hmatch, hplen, hnd, hbd⟩ := inv_runOps ops
  refine ⟨cs, hlencs, hmatch, ?_⟩
  intro i hi
  obtain ⟨k, hk, hik⟩ := mem_chain_of_flatten hi
  exact matchQ_full_of_next (hmatch k hk) i hik

end ByteQueueSpec
